import Mathlib

/-!
# Verification of the vehicle-routing planner

A shallow embedding of the Python modules `graph.py`, `cost.py` and
`planner.py` of the repository, together with theorems checking the
natural-language specification against this embedding.

Modelling conventions:
* Python `float` values are modelled as `ℚ` (exact arithmetic).
* Python list indexing `l[i]` with an `int` index is modelled by `pyGet`,
  which reproduces Python's semantics: non-negative indices are plain
  lookups, indices in `[-len l, -1]` wrap around, and anything else raises
  `IndexError`, modelled as `none`.
* A raised exception is modelled as `none` (for single lookups) or as
  `Except.error ()` (for whole computations).
* Time steps and node identifiers produced by the algorithm are natural
  numbers; the raw graph queries take `Int` arguments because Python
  callers may pass any integer.
-/

deriving instance DecidableEq for Except

unseal Rat.add Rat.mul Rat.sub Rat.inv

/-- Python list indexing `l[i]` for an `int` index `i`: non-negative
indices index from the front, indices in `[-len l, -1]` wrap to
`len l + i`, and any other index raises `IndexError` (modelled `none`). -/
def pyGet {α : Type} (l : List α) (i : Int) : Option α :=
  if 0 ≤ i then
    l.get? i.toNat
  else
    let j : Int := (l.length : Int) + i
    if 0 ≤ j then l.get? j.toNat else none

/-- The two vehicle classes of the fleet (`vehicle_type` strings
`"truck"` and `"drone"` in the source). -/
inductive VehicleType : Type
  | truck
  | drone
deriving DecidableEq, Repr

/-- `Graph` from `graph.py`: road network as an adjacency matrix of road
types (`-1` no road, `0` airspace, `1..5` ground roads). -/
structure Graph : Type where
  adjacency_matrix : List (List Int)
deriving DecidableEq, Repr

/-- `self.num_nodes = len(adjacency_matrix)`. -/
def Graph.num_nodes (g : Graph) : Nat :=
  g.adjacency_matrix.length

/-- `Graph.get_road_type`: `self.adjacency_matrix[from_node][to_node]`,
`none` when the lookup raises `IndexError`. -/
def Graph.get_road_type (g : Graph) (from_node to_node : Int) : Option Int :=
  (pyGet g.adjacency_matrix from_node).bind fun row => pyGet row to_node

/-- `Graph.is_valid_edge`: road exists and is not truck-on-airspace;
`none` when the matrix lookup raises. -/
def Graph.is_valid_edge (g : Graph) (from_node to_node : Int)
    (vehicle_type : VehicleType) : Option Bool :=
  (g.get_road_type from_node to_node).map fun road_type =>
    if road_type = -1 then false
    else if vehicle_type = VehicleType.truck ∧ road_type = 0 then false
    else true

/-- `Graph.get_neighbors`: for `next_node in range(num_nodes)` look up
`adjacency_matrix[node][next_node]`, skip `-1` entries and (for trucks)
airspace entries, and collect `(next_node, road_type)` pairs.  The result
is `none` when any lookup raises (an out-of-range `node` raises on the
first iteration; on an empty graph the loop body never runs). -/
def Graph.get_neighbors (g : Graph) (node : Int)
    (vehicle_type : VehicleType) : Option (List (Nat × Int)) :=
  (List.range g.num_nodes).foldl
    (fun acc (next_node : Nat) =>
      acc.bind fun neighbors =>
        (g.get_road_type node (next_node : Int)).map fun road_type =>
          if road_type = -1 then neighbors
          else if vehicle_type = VehicleType.truck ∧ road_type = 0 then neighbors
          else neighbors ++ [((next_node, road_type) : Nat × Int)])
    (some ([] : List (Nat × Int)))

/-- `CostCalculator` from `cost.py`.  `road_weights` models the dict
`{"1": [...], ..., "5": [...]}` keyed directly by the numeric road type
(the source keys it by `str(road_type)`); the four sensor series model
`sensor_data`.  The memoisation cache is omitted: the spec states it has
no observable effect. -/
structure CostCalculator : Type where
  road_weights : Int → List ℚ
  earth_shock : List ℚ
  rainfall : List ℚ
  wind : List ℚ
  visibility : List ℚ

/-- `CostCalculator._is_blocked`: the AND of the two per-class hazard
thresholds, read at sensor index `time`; `none` when a sensor lookup
raises `IndexError`. -/
def CostCalculator.is_blocked (cc : CostCalculator) (base_weight : ℚ)
    (time : Nat) (vehicle_type : VehicleType) : Option Bool :=
  match vehicle_type with
  | VehicleType.truck =>
    (cc.earth_shock.get? time).bind fun earth_shock =>
      (cc.rainfall.get? time).map fun rainfall =>
        decide (base_weight * earth_shock > 10 ∧ base_weight * rainfall > 30)
  | VehicleType.drone =>
    (cc.wind.get? time).bind fun wind =>
      (cc.visibility.get? time).map fun visibility =>
        decide (base_weight * wind > 60 ∧ base_weight * visibility < 6)

/-- `CostCalculator.get_cost`: outer `none` models a raised exception
(out-of-range weight or sensor index), `some none` models the Python
return value `None` (impassable), `some (some c)` a finite cost. -/
def CostCalculator.get_cost (cc : CostCalculator) (road_type : Int)
    (time : Nat) (vehicle_type : VehicleType) : Option (Option ℚ) :=
  if road_type = -1 then
    some none
  else if vehicle_type = VehicleType.truck ∧ road_type = 0 then
    some none
  else if road_type = 0 then
    some (some 0)
  else
    ((cc.road_weights road_type).get? time).bind fun base_weight =>
      (cc.is_blocked base_weight time vehicle_type).map fun is_blocked =>
        let base_cost := base_weight * (road_type : ℚ)
        some (if is_blocked then base_cost * 5 else base_cost)

example :
    (Graph.mk [[-1, 1], [0, -1]]).get_neighbors 0 VehicleType.truck
      = some [(1, 1)] := by decide

example :
    (Graph.mk [[-1, 0], [1, -1]]).get_road_type (-1) 0 = some 1 := by decide

/-- Reference blocking predicate transcribed from the spec's words
(§4.2): strict thresholds, both must hold, computed from the base
weight. -/
def specBlocked (cc : CostCalculator) (base_weight : ℚ) (time : Nat)
    (vehicle_type : VehicleType) : Prop :=
  match vehicle_type with
  | VehicleType.truck =>
    base_weight * cc.earth_shock.getD time 0 > 10 ∧
      base_weight * cc.rainfall.getD time 0 > 30
  | VehicleType.drone =>
    base_weight * cc.wind.getD time 0 > 60 ∧
      base_weight * cc.visibility.getD time 0 < 6

instance (cc : CostCalculator) (w : ℚ) (t : Nat) (vt : VehicleType) :
    Decidable (specBlocked cc w t vt) := by
  unfold specBlocked
  cases vt <;> exact inferInstance

/-- Reference cost function transcribed from the spec's words (§4.2):
the four rules evaluated in order. -/
def specCost (cc : CostCalculator) (road_type : Int) (time : Nat)
    (vehicle_type : VehicleType) : Option ℚ :=
  if road_type = -1 then none
  else if vehicle_type = VehicleType.truck ∧ road_type = 0 then none
  else if road_type = 0 then some 0
  else
    let base_weight := (cc.road_weights road_type).getD time 0
    some (if specBlocked cc base_weight time vehicle_type then
            base_weight * (road_type : ℚ) * 5
          else base_weight * (road_type : ℚ))

/-- claim C2: for a ground road type `1..5` and an in-range time, the
edge is blocked iff BOTH strict threshold conditions on the base weight
hold (truck: `w*earth_shock > 10` and `w*rainfall > 30`; drone:
`w*wind > 60` and `w*visibility < 6`), and the final cost carries the ×5
factor exactly in that case — a single exceeded threshold or exact
equality with 10, 30, 60 or 6 does not block. -/
theorem cost_blocking_iff_both_strict (cc : CostCalculator) (r : Int)
    (t : Nat) (w es rf wd vis : ℚ)
    (hr1 : 1 ≤ r) (hr5 : r ≤ 5)
    (hw : (cc.road_weights r).get? t = some w)
    (hes : cc.earth_shock.get? t = some es)
    (hrf : cc.rainfall.get? t = some rf)
    (hwd : cc.wind.get? t = some wd)
    (hvis : cc.visibility.get? t = some vis) :
    (cc.is_blocked w t VehicleType.truck = some true ↔
        (w * es > 10 ∧ w * rf > 30)) ∧
    (cc.is_blocked w t VehicleType.drone = some true ↔
        (w * wd > 60 ∧ w * vis < 6)) ∧
    cc.get_cost r t VehicleType.truck =
      some (some (if w * es > 10 ∧ w * rf > 30 then w * r * 5 else w * r)) ∧
    cc.get_cost r t VehicleType.drone =
      some (some (if w * wd > 60 ∧ w * vis < 6 then w * r * 5 else w * r)) := by
  have hrne1 : ¬ (r = -1) := by omega
  have hrne0 : ¬ (r = 0) := by omega
  simp only [List.get?_eq_getElem?] at hw hes hrf hwd hvis
  refine ⟨?_, ?_, ?_, ?_⟩
  · simp [CostCalculator.is_blocked, hes, hrf]
  · simp [CostCalculator.is_blocked, hwd, hvis]
  · simp only [CostCalculator.get_cost, CostCalculator.is_blocked,
      hrne1, hrne0, if_false, Option.bind_some, Option.map_some]
    by_cases hb : (w * es > 10 ∧ w * rf > 30) <;>
      simp [hb, hw, hes, hrf]
  · simp only [CostCalculator.get_cost, CostCalculator.is_blocked,
      hrne1, hrne0, if_false, Option.bind_some, Option.map_some]
    by_cases hb : (w * wd > 60 ∧ w * vis < 6) <;>
      simp [hb, hw, hwd, hvis]

/-- Concrete cost calculator used to witness the cost-model theorems. -/
def ccW : CostCalculator where
  road_weights := fun _ => [2]
  earth_shock := [6]
  rainfall := [16]
  wind := [31]
  visibility := [2]

theorem cost_blocking_iff_both_strict_witness :
    (1 : Int) ≤ 1 ∧
    (ccW.is_blocked 2 0 VehicleType.truck = some true ↔
        ((2 : ℚ) * 6 > 10 ∧ (2 : ℚ) * 16 > 30)) ∧
    (ccW.is_blocked 2 0 VehicleType.drone = some true ↔
        ((2 : ℚ) * 31 > 60 ∧ (2 : ℚ) * 2 < 6)) ∧
    ccW.get_cost 1 0 VehicleType.truck =
      some (some (if (2 : ℚ) * 6 > 10 ∧ (2 : ℚ) * 16 > 30
                  then 2 * 1 * 5 else 2 * 1)) ∧
    ccW.get_cost 1 0 VehicleType.drone =
      some (some (if (2 : ℚ) * 31 > 60 ∧ (2 : ℚ) * 2 < 6
                  then 2 * 1 * 5 else 2 * 1)) := by
  refine ⟨by decide, ?_⟩
  have h := cost_blocking_iff_both_strict ccW 1 0 2 6 16 31 2
    (by decide) (by decide) (by decide) (by decide) (by decide) (by decide)
    (by decide)
  exact_mod_cast h

/-- claim C3: on the road-type vocabulary `{-1, 0, 1..5}` and in-range
times, `get_cost` computes exactly the four-rule reference definition of
the spec: `NoRoad ↦ Impassable`, `Airspace/Truck ↦ Impassable`,
`Airspace/Drone ↦ 0`, and for ground types the base weight times the
road type, times 5 when blocked. -/
theorem get_cost_eq_specCost (cc : CostCalculator) (r : Int) (t : Nat)
    (vt : VehicleType)
    (_hr : -1 ≤ r ∧ r ≤ 5)
    (hwlen : t < ((cc.road_weights r).length))
    (hes : t < cc.earth_shock.length)
    (hrf : t < cc.rainfall.length)
    (hwd : t < cc.wind.length)
    (hvis : t < cc.visibility.length) :
    cc.get_cost r t vt = some (specCost cc r t vt) := by
  unfold CostCalculator.get_cost specCost
  by_cases h1 : r = -1
  · simp [h1]
  · by_cases h2 : vt = VehicleType.truck ∧ r = 0
    · simp [h1, h2]
    · by_cases h3 : r = 0
      · have h4 : ¬ (vt = VehicleType.truck) := fun hvt => h2 ⟨hvt, h3⟩
        simp [h1, h2, h3, h4]
      · simp only [h1, h2, h3, if_false]
        unfold CostCalculator.is_blocked specBlocked
        cases vt with
        | truck =>
          simp only [List.get?_eq_getElem?, List.getElem?_eq_getElem hwlen,
            List.getElem?_eq_getElem hes, List.getElem?_eq_getElem hrf,
            List.getD_eq_getElem _ _ hwlen, List.getD_eq_getElem _ _ hes,
            List.getD_eq_getElem _ _ hrf, Option.bind_some, Option.map_some]
          by_cases hb : ((cc.road_weights r)[t] * cc.earth_shock[t] > 10 ∧
              (cc.road_weights r)[t] * cc.rainfall[t] > 30) <;> simp [hb]
        | drone =>
          simp only [List.get?_eq_getElem?, List.getElem?_eq_getElem hwlen,
            List.getElem?_eq_getElem hwd, List.getElem?_eq_getElem hvis,
            List.getD_eq_getElem _ _ hwlen, List.getD_eq_getElem _ _ hwd,
            List.getD_eq_getElem _ _ hvis, Option.bind_some, Option.map_some]
          by_cases hb : ((cc.road_weights r)[t] * cc.wind[t] > 60 ∧
              (cc.road_weights r)[t] * cc.visibility[t] < 6) <;> simp [hb]

theorem get_cost_eq_specCost_witness :
    ((-1 : Int) ≤ 0 ∧ (0 : Int) ≤ 5) ∧
    ccW.get_cost 0 0 VehicleType.drone = some (specCost ccW 0 0 VehicleType.drone) := by
  exact ⟨by decide,
    get_cost_eq_specCost ccW 0 0 VehicleType.drone (by decide) (by decide)
      (by decide) (by decide) (by decide) (by decide)⟩

/-- An objective dict `{node, release, deadline, points}` from
`objectives.json`.  Times and node ids are natural numbers, points are
rational. -/
structure Objective : Type where
  node : Nat
  release : Nat
  deadline : Nat
  points : ℚ
deriving DecidableEq, Repr

/-- `Planner._calculate_score`: points earned for reaching `obj` at
`arrival` (0 outside the window, full points at release, late penalty
after, floored at 0). -/
def calculate_score (late_penalty : ℚ) (arrival : Nat) (obj : Objective) : ℚ :=
  if arrival < obj.release ∨ arrival > obj.deadline then 0
  else if arrival = obj.release then obj.points
  else
    max 0 (obj.points - late_penalty * ((arrival : ℚ) - (obj.release : ℚ)))

/-- claim C7: for every valid objective (release ≤ deadline) the scoring
function gives full points exactly at release, `max(0, points -
late_penalty*k)` at `release + k` whenever `k ≥ 1` and `release + k`
is within the deadline, and 0 strictly before release or after the
deadline — the first and third clauses unconditionally, the `k`-bounds
scoping only the middle clause. -/
theorem calculate_score_spec (late_penalty : ℚ) (obj : Objective) (k t : Nat)
    (hwin : obj.release ≤ obj.deadline) :
    calculate_score late_penalty obj.release obj = obj.points ∧
    (1 ≤ k → obj.release + k ≤ obj.deadline →
      calculate_score late_penalty (obj.release + k) obj =
        max 0 (obj.points - late_penalty * (k : ℚ))) ∧
    ((t < obj.release ∨ t > obj.deadline) →
      calculate_score late_penalty t obj = 0) := by
  refine ⟨?_, ?_, ?_⟩
  · unfold calculate_score
    have h1 : ¬ (obj.release < obj.release ∨ obj.release > obj.deadline) := by
      omega
    rw [if_neg h1, if_pos rfl]
  · intro hk hkd
    unfold calculate_score
    have h1 : ¬ (obj.release + k < obj.release ∨ obj.release + k > obj.deadline) := by
      omega
    have h2 : ¬ (obj.release + k = obj.release) := by omega
    have h3 : ((obj.release + k : Nat) : ℚ) - (obj.release : ℚ) = (k : ℚ) := by
      push_cast
      ring
    simp only [h1, h2, if_false, h3]
  · intro ht
    unfold calculate_score
    simp [ht]

theorem calculate_score_spec_witness :
    ((2 : Nat) ≤ 9) ∧
    (calculate_score 1 2 (Objective.mk 0 2 9 10) = (10 : ℚ) ∧
     (1 ≤ 3 → 2 + 3 ≤ 9 →
       calculate_score 1 (2 + 3) (Objective.mk 0 2 9 10) =
         max 0 ((10 : ℚ) - 1 * (3 : ℚ))) ∧
     (((1 : Nat) < 2 ∨ (1 : Nat) > 9) →
       calculate_score 1 1 (Objective.mk 0 2 9 10) = 0)) := by
  exact ⟨by decide,
    calculate_score_spec 1 (Objective.mk 0 2 9 10) 3 1 (by decide)⟩

/-- Stable insertion of `x` into `l`: `x` is placed before the first
element `y` with `le x y`, hence after every earlier element with an
equal key.  Building block for the model of Python's stable `sorted`. -/
def insertStable {α : Type} (le : α → α → Bool) (x : α) : List α → List α
  | [] => [x]
  | y :: ys => if le x y then x :: y :: ys else y :: insertStable le x ys

/-- Stable insertion sort; for a total transitive comparison this is
exactly the (unique) stable sort, i.e. Python's `sorted`. -/
def stableSort {α : Type} (le : α → α → Bool) : List α → List α
  | [] => []
  | x :: xs => insertStable le x (stableSort le xs)

theorem insertStable_perm {α : Type} (le : α → α → Bool) (x : α)
    (l : List α) : List.Perm (insertStable le x l) (x :: l) := by
  induction l with
  | nil => exact List.Perm.refl _
  | cons y ys ih =>
    unfold insertStable
    by_cases h : le x y
    · simp [h]
    · simp only [h, if_false]
      exact (ih.cons y).trans (List.Perm.swap x y ys)

theorem stableSort_perm {α : Type} (le : α → α → Bool) (l : List α) :
    List.Perm (stableSort le l) l := by
  induction l with
  | nil => exact List.Perm.refl _
  | cons x xs ih =>
    exact (insertStable_perm le x (stableSort le xs)).trans (ih.cons x)

theorem pairwise_insertStable {α : Type} (le : α → α → Bool)
    (htot : ∀ a b, le a b = true ∨ le b a = true)
    (htrans : ∀ a b c, le a b = true → le b c = true → le a c = true)
    (x : α) (l : List α) (hl : l.Pairwise (fun a b => le a b = true)) :
    (insertStable le x l).Pairwise (fun a b => le a b = true) := by
  induction l with
  | nil => simp [insertStable]
  | cons y ys ih =>
    rcases List.pairwise_cons.mp hl with ⟨hy, hys⟩
    unfold insertStable
    by_cases h : le x y
    · simp only [h, if_true]
      refine List.pairwise_cons.mpr ⟨?_, hl⟩
      intro z hz
      rcases List.mem_cons.mp hz with hz | hz
      · rw [hz]; exact h
      · exact htrans x y z h (hy z hz)
    · simp only [h, if_false]
      refine List.pairwise_cons.mpr ⟨?_, ih hys⟩
      intro z hz
      rcases List.mem_cons.mp ((insertStable_perm le x ys).mem_iff.mp hz) with
        hz | hz
      · rcases htot x y with h1 | h1
        · exact absurd h1 h
        · rw [hz]; exact h1
      · exact hy z hz

theorem pairwise_stableSort {α : Type} (le : α → α → Bool)
    (htot : ∀ a b, le a b = true ∨ le b a = true)
    (htrans : ∀ a b c, le a b = true → le b c = true → le a c = true)
    (l : List α) :
    (stableSort le l).Pairwise (fun a b => le a b = true) := by
  induction l with
  | nil => simp [stableSort]
  | cons x xs ih => exact pairwise_insertStable le htot htrans x _ ih

theorem filter_insertStable_neg {α : Type} (le : α → α → Bool)
    (p : α → Bool) (x : α) (hx : p x = false) (l : List α) :
    (insertStable le x l).filter p = l.filter p := by
  induction l with
  | nil => simp [insertStable, hx]
  | cons y ys ih =>
    unfold insertStable
    by_cases h : le x y
    · simp [h, List.filter_cons, hx]
    · simp [h, List.filter_cons, ih]

theorem filter_insertStable_pos {α : Type} (le : α → α → Bool)
    (p : α → Bool) (x : α) (hx : p x = true)
    (hskip : ∀ y, le x y = false → p y = false) (l : List α) :
    (insertStable le x l).filter p = x :: l.filter p := by
  induction l with
  | nil => simp [insertStable, hx]
  | cons y ys ih =>
    unfold insertStable
    by_cases h : le x y
    · simp [h, List.filter_cons, hx]
    · have hy : p y = false := hskip y (by simpa using h)
      simp [h, List.filter_cons, hy, ih]

/-- The priority key of `Planner._prioritize_objectives`:
`-points / max(1, deadline - release + 1)`. -/
def priority_key (obj : Objective) : ℚ :=
  let time_window : Int := (obj.deadline : Int) - (obj.release : Int) + 1;
  -obj.points / ((max 1 time_window : Int) : ℚ)

/-- `Planner._prioritize_objectives`: Python's `sorted` with key
`priority_key`, i.e. the stable ascending sort by that key. -/
def prioritize_objectives (objectives : List Objective) : List Objective :=
  stableSort (fun a b => decide (priority_key a ≤ priority_key b)) objectives

/-- claim C8: the visitation order produced before phase 2 is a
permutation of the input objectives, non-decreasing in the key
`-points / max(1, deadline - release + 1)`, and stable: for every key
value, the objectives carrying that key appear in their original input
order. -/
theorem prioritize_objectives_spec (objs : List Objective) :
    List.Perm (prioritize_objectives objs) objs ∧
    (prioritize_objectives objs).Pairwise
      (fun a b => priority_key a ≤ priority_key b) ∧
    ∀ q : ℚ, (prioritize_objectives objs).filter
        (fun o => decide (priority_key o = q)) =
      objs.filter (fun o => decide (priority_key o = q)) := by
  refine ⟨stableSort_perm _ objs, ?_, ?_⟩
  · have h := pairwise_stableSort
      (fun a b => decide (priority_key a ≤ priority_key b))
      (fun a b => by
        rcases le_total (priority_key a) (priority_key b) with h | h
        · exact Or.inl (by simpa using h)
        · exact Or.inr (by simpa using h))
      (fun a b c hab hbc => by
        simp only [decide_eq_true_eq] at hab hbc ⊢
        exact le_trans hab hbc)
      objs
    refine h.imp ?_
    intro a b hab
    simpa using hab
  · intro q
    unfold prioritize_objectives
    induction objs with
    | nil => simp [stableSort]
    | cons x xs ih =>
      unfold stableSort
      by_cases hx : priority_key x = q
      · rw [filter_insertStable_pos _ _ x (by simpa using hx)
          (fun y hy => by
            simp only [decide_eq_false_iff_not] at hy ⊢
            intro hyq
            exact hy (le_of_eq (hx.trans hyq.symm))) _]
        rw [ih]
        simp [List.filter_cons, hx]
      · rw [filter_insertStable_neg _ _ x (by simpa using hx) _]
        rw [ih]
        simp [List.filter_cons, hx]

/-- Python `<` on lists of ints (lexicographic element order). -/
def pyListLt : List Nat → List Nat → Bool
  | [], [] => false
  | [], _ :: _ => true
  | _ :: _, [] => false
  | a :: as, b :: bs =>
    if a < b then true else if b < a then false else pyListLt as bs

/-- A frontier entry `(f_score, g_score, node, time, path)` as pushed on
the priority queue in `Planner._find_path`. -/
structure Entry : Type where
  f : ℚ
  g : ℚ
  nd : Nat
  tm : Nat
  path : List Nat
deriving DecidableEq, Repr

/-- Python tuple `<` on entries: lexicographic on
`(f, g, node, time, path)`, as used by `heapq`. -/
def entryLt (x y : Entry) : Bool :=
  if x.f < y.f then true else if y.f < x.f then false
  else if x.g < y.g then true else if y.g < x.g then false
  else if x.nd < y.nd then true else if y.nd < x.nd then false
  else if x.tm < y.tm then true else if y.tm < x.tm then false
  else pyListLt x.path y.path

theorem entryLt_true_f_le {x y : Entry} (h : entryLt x y = true) :
    x.f ≤ y.f := by
  by_cases h1 : x.f < y.f
  · exact le_of_lt h1
  · by_cases h2 : y.f < x.f
    · simp [entryLt, h1, h2] at h
    · exact le_of_not_lt h2

theorem entryLt_false_f_le {x y : Entry} (h : entryLt x y = false) :
    y.f ≤ x.f := by
  by_cases h1 : x.f < y.f
  · simp [entryLt, h1] at h
  · exact le_of_not_lt h1

/-- Scan for the least entry in tuple order (the entry `heapq.heappop`
would deliver). -/
def minEntry (e : Entry) : List Entry → Entry
  | [] => e
  | x :: xs => minEntry (if entryLt x e then x else e) xs

theorem minEntry_mem (e : Entry) (l : List Entry) :
    minEntry e l ∈ e :: l := by
  induction l generalizing e with
  | nil => simp [minEntry]
  | cons x xs ih =>
    unfold minEntry
    by_cases hc : entryLt x e
    · simp only [hc, if_true]
      rcases List.mem_cons.mp (ih x) with h | h
      · simp [h]
      · simp [h]
    · simp only [hc, if_false]
      rcases List.mem_cons.mp (ih e) with h | h
      · simp [h]
      · simp [h]

theorem minEntry_f_le (e : Entry) (l : List Entry) :
    ∀ y ∈ e :: l, (minEntry e l).f ≤ y.f := by
  induction l generalizing e with
  | nil =>
    intro y hy
    rcases List.mem_cons.mp hy with h | h
    · rw [h]; exact le_refl _
    · simp at h
  | cons x xs ih =>
    intro y hy
    unfold minEntry
    by_cases hc : entryLt x e
    · simp only [hc, if_true]
      rcases List.mem_cons.mp hy with h | h
      · calc (minEntry x xs).f ≤ x.f := ih x x (by simp)
          _ ≤ e.f := entryLt_true_f_le hc
          _ = y.f := by rw [h]
      · rcases List.mem_cons.mp h with h2 | h2
        · exact h2 ▸ ih x x (by simp)
        · exact ih x y (List.mem_cons.mpr (Or.inr h2))
    · simp only [hc, if_false]
      have hef : e.f ≤ x.f := entryLt_false_f_le (by simpa using hc)
      rcases List.mem_cons.mp hy with h | h
      · exact h ▸ ih e e (by simp)
      · rcases List.mem_cons.mp h with h2 | h2
        · calc (minEntry e xs).f ≤ e.f := ih e e (by simp)
            _ ≤ x.f := hef
            _ = y.f := by rw [h2]
        · exact ih e y (List.mem_cons.mpr (Or.inr h2))

/-- `heapq.heappop`: remove and return the least entry; `none` on an
empty queue (the loop then exits). -/
def popMin : List Entry → Option (Entry × List Entry)
  | [] => none
  | x :: xs =>
    let m := minEntry x xs
    some (m, (x :: xs).erase m)

theorem popMin_mem {pq : List Entry} {e : Entry} {rest : List Entry}
    (h : popMin pq = some (e, rest)) : e ∈ pq := by
  cases pq with
  | nil => simp [popMin] at h
  | cons x xs =>
    simp only [popMin, Option.some.injEq, Prod.mk.injEq] at h
    exact h.1 ▸ minEntry_mem x xs

theorem popMin_f_le {pq : List Entry} {e : Entry} {rest : List Entry}
    (h : popMin pq = some (e, rest)) : ∀ y ∈ pq, e.f ≤ y.f := by
  cases pq with
  | nil => simp [popMin] at h
  | cons x xs =>
    simp only [popMin, Option.some.injEq, Prod.mk.injEq] at h
    exact h.1 ▸ minEntry_f_le x xs

theorem popMin_rest {pq : List Entry} {e : Entry} {rest : List Entry}
    (h : popMin pq = some (e, rest)) : rest = pq.erase e := by
  cases pq with
  | nil => simp [popMin] at h
  | cons x xs =>
    simp only [popMin, Option.some.injEq, Prod.mk.injEq] at h
    rw [← h.2, h.1]

theorem popMin_perm {pq : List Entry} {e : Entry} {rest : List Entry}
    (h : popMin pq = some (e, rest)) : List.Perm pq (e :: rest) := by
  rw [popMin_rest h]
  exact List.perm_cons_erase (popMin_mem h)

/-- The fixed parameters of one `Planner._find_path` call. -/
structure SearchCtx : Type where
  graph : Graph
  cost_calc : CostCalculator
  target_node : Nat
  vehicle_type : VehicleType
  deadline : Nat
  T : Nat

/-- `state in visited and visited[state] <= g`. -/
def visitedLE (visited : Nat × Nat → Option ℚ) (s : Nat × Nat) (g : ℚ) : Bool :=
  match visited s with
  | none => false
  | some v => decide (v ≤ g)

/-- The `# Option 2: Move` loop body of `_find_path`: for every
neighbor compute the edge cost at the departure time, skip `None`
(impassable) costs, and build the pushed entries in neighbor order.
Returns `none` when a cost lookup raises. -/
def expandMoves (ctx : SearchCtx) (g : ℚ) (tm : Nat) (path : List Nat)
    (nbrs : List (Nat × Int)) : Option (List Entry) :=
  nbrs.foldl
    (fun acc nb =>
      acc.bind fun entries =>
        (ctx.cost_calc.get_cost nb.2 tm ctx.vehicle_type).map fun edge_cost =>
          match edge_cost with
          | none => entries
          | some c =>
            entries ++ [Entry.mk (g + c) (g + c) nb.1 (tm + 1) (path ++ [nb.1])])
    (some ([] : List Entry))

/-- The `while pq:` loop of `Planner._find_path`, with explicit fuel.
`Except.error ()` models a raised exception (and exhausted fuel, which
the fuel bound shows never happens); `Except.ok none` models the
`(None, inf, T)` no-path return; `Except.ok (some (path, g, time))`
models a successful return. -/
def searchLoop (ctx : SearchCtx) :
    Nat → List Entry → (Nat × Nat → Option ℚ) →
      Except Unit (Option (List Nat × ℚ × Nat))
  | 0, _, _ => Except.error ()
  | fuel + 1, pq, visited =>
    match popMin pq with
    | none => Except.ok none
    | some (e, rest) =>
      if e.nd = ctx.target_node ∧ e.tm ≤ ctx.deadline then
        Except.ok (some (e.path, e.g, e.tm))
      else if ctx.T ≤ e.tm ∨ ctx.deadline < e.tm then
        searchLoop ctx fuel rest visited
      else if visitedLE visited (e.nd, e.tm) e.g then
        searchLoop ctx fuel rest visited
      else
        let visited' := fun s =>
          if s = (e.nd, e.tm) then some e.g else visited s
        let waitEntry := Entry.mk e.g e.g e.nd (e.tm + 1) (e.path ++ [e.nd])
        match ctx.graph.get_neighbors (e.nd : Int) ctx.vehicle_type with
        | none => Except.error ()
        | some nbrs =>
          match expandMoves ctx e.g e.tm e.path nbrs with
          | none => Except.error ()
          | some moves =>
            searchLoop ctx fuel (rest ++ waitEntry :: moves) visited'

/-- Weight of a frontier entry in the termination measure. -/
def entryWeight (N T : Nat) (e : Entry) : Nat :=
  (N + 2) ^ (T + 1 - e.tm)

/-- Termination measure of the frontier: total weight of its entries. -/
def pqMeasure (N T : Nat) (pq : List Entry) : Nat :=
  (pq.map (entryWeight N T)).sum

/-- Fuel that provably outlasts the loop: one more than the initial
measure. -/
def searchFuel (N T start_time : Nat) : Nat :=
  (N + 2) ^ (T + 1 - start_time) + 1

/-- `Planner._find_path`: A* over `(node, time)` states (Dijkstra, since
the heuristic is the accumulated cost). -/
def find_path (graph : Graph) (cost_calc : CostCalculator)
    (start_node start_time target_node : Nat) (vehicle_type : VehicleType)
    (deadline T : Nat) : Except Unit (Option (List Nat × ℚ × Nat)) :=
  searchLoop (SearchCtx.mk graph cost_calc target_node vehicle_type deadline T)
    (searchFuel graph.num_nodes T start_time)
    [Entry.mk 0 0 start_node start_time [start_node]]
    (fun _ => none)

/-- Concrete graph of the horizon counterexample: `0 → 2 → 1`, no direct
road `0 → 1`. -/
def grCex : Graph :=
  Graph.mk [[-1, -1, 1], [-1, -1, -1], [-1, 1, -1]]

/-- Concrete cost calculator of the horizon counterexample: weight and
sensor series of length 2 (≥ T = 1), never blocked. -/
def ccCex : CostCalculator where
  road_weights := fun _ => [1, 1]
  earth_shock := [0, 0]
  rainfall := [0, 0]
  wind := [0, 0]
  visibility := [0, 0]

example :
    find_path grCex ccCex 0 0 1 VehicleType.truck 5 1 = Except.ok none := by
  decide

/-- Cost charged by one schedule step that departs node `a` at time `t`
and occupies node `b` at `t + 1`: a wait (`a = b`) is free and always
available; a move needs a road usable by the class whose cost at `t` is
defined and not impassable.  `none` means the step is not a legal
wait/move step. -/
def stepCost (gr : Graph) (cc : CostCalculator) (vt : VehicleType)
    (t : Nat) (a b : Nat) : Option ℚ :=
  if a = b then some 0
  else
    (gr.get_road_type (a : Int) (b : Int)).bind fun road_type =>
      (cc.get_cost road_type t vt).bind fun oc => oc

/-- Total cost of a schedule (one node per time step, starting at time
`t`): the sum of its step costs, or `none` if some step is illegal. -/
def schedCost (gr : Graph) (cc : CostCalculator) (vt : VehicleType) :
    Nat → List Nat → Option ℚ
  | _, [] => some 0
  | _, [_] => some 0
  | t, a :: b :: rest =>
    (stepCost gr cc vt t a b).bind fun c =>
      (schedCost gr cc vt (t + 1) (b :: rest)).map fun d => c + d

/-- The feasible set quantified over by claim C1, exactly as the claim
words it (no horizon bound): a legal wait/move sequence from
`(start_node, start_time)` whose last node is the target, arriving at a
time `≤ deadline`. -/
def ReachesBy (gr : Graph) (cc : CostCalculator) (vt : VehicleType)
    (start_node start_time target_node deadline : Nat)
    (p : List Nat) : Prop :=
  p.head? = some start_node ∧ p.getLast? = some target_node ∧
  schedCost gr cc vt start_time p ≠ none ∧
  start_time + (p.length - 1) ≤ deadline

/-- The feasible set restricted to the global horizon: arrival also at
or before `T`, which is what the pathfinder actually explores. -/
def ReachesByH (gr : Graph) (cc : CostCalculator) (vt : VehicleType)
    (start_node start_time target_node deadline T : Nat)
    (p : List Nat) : Prop :=
  ReachesBy gr cc vt start_node start_time target_node deadline p ∧
  start_time + (p.length - 1) ≤ T

/-- claim C1 counterexample: with horizon `T = 1`, deadline `5`, and the
network `0 → 2 → 1`, the sequence `[0, 2, 1]` is a legal wait/move
sequence reaching the target at time `2 ≤ deadline` (every step cost is
defined: the series have length 2), yet `_find_path` reports no path —
the claim omits the horizon bound on exploration. -/
theorem find_path_misses_late_schedule :
    ReachesBy grCex ccCex VehicleType.truck 0 0 1 5 [0, 2, 1] ∧
    find_path grCex ccCex 0 0 1 VehicleType.truck 5 1 = Except.ok none := by
  constructor
  · refine ⟨rfl, rfl, ?_, by decide⟩
    decide
  · decide

/-- Well-formed road network: the adjacency matrix is square and its
entries are road types in `{-1, 0, 1..5}` (spec §3). -/
def WFGraph (gr : Graph) : Prop :=
  ∀ row ∈ gr.adjacency_matrix,
    row.length = gr.num_nodes ∧ ∀ x ∈ row, -1 ≤ x ∧ x ≤ 5

/-- Well-formed cost data for horizon `T`: every ground-road weight
series and sensor series has length ≥ T, and weights are non-negative
(spec §3). -/
def WFCost (cc : CostCalculator) (T : Nat) : Prop :=
  (∀ r : Int, 1 ≤ r → r ≤ 5 →
    T ≤ (cc.road_weights r).length ∧ ∀ w ∈ cc.road_weights r, 0 ≤ w) ∧
  T ≤ cc.earth_shock.length ∧ T ≤ cc.rainfall.length ∧
  T ≤ cc.wind.length ∧ T ≤ cc.visibility.length

theorem pyGet_nat {α : Type} (l : List α) (i : Nat) :
    pyGet l (i : Int) = l.get? i := by
  simp [pyGet]

theorem pyGet_mem {α : Type} {l : List α} {i : Int} {x : α}
    (h : pyGet l i = some x) : x ∈ l := by
  unfold pyGet at h
  by_cases h0 : 0 ≤ i
  · simp only [h0, if_true] at h
    exact List.get?_mem h
  · simp only [h0, if_false] at h
    by_cases h1 : 0 ≤ (l.length : Int) + i
    · simp only [h1, if_true] at h
      exact List.get?_mem h
    · simp [h1] at h

theorem get_road_type_mem_range {gr : Graph} {a b rt : Int}
    (hwfg : WFGraph gr) (h : gr.get_road_type a b = some rt) :
    -1 ≤ rt ∧ rt ≤ 5 := by
  unfold Graph.get_road_type at h
  rcases Option.bind_eq_some.mp h with ⟨row, hrow, hb⟩
  exact (hwfg row (pyGet_mem hrow)).2 rt (pyGet_mem hb)

theorem get_road_type_lt {gr : Graph} {a b : Nat} {rt : Int}
    (hwfg : WFGraph gr) (h : gr.get_road_type (a : Int) (b : Int) = some rt) :
    a < gr.num_nodes ∧ b < gr.num_nodes := by
  unfold Graph.get_road_type at h
  rcases Option.bind_eq_some.mp h with ⟨row, hrow, hb⟩
  rw [pyGet_nat] at hrow hb
  have ha : a < gr.adjacency_matrix.length := List.get?_eq_some.mp hrow |>.1
  have hblen : b < row.length := List.get?_eq_some.mp hb |>.1
  exact ⟨ha, (hwfg row (List.get?_mem hrow)).1 ▸ hblen⟩

theorem get_road_type_total {gr : Graph} {a b : Nat} (hwfg : WFGraph gr)
    (ha : a < gr.num_nodes) (hb : b < gr.num_nodes) :
    ∃ rt, gr.get_road_type (a : Int) (b : Int) = some rt := by
  have hrow := List.get?_eq_get ha
  have hblen : b < (gr.adjacency_matrix.get ⟨a, ha⟩).length := by
    rw [(hwfg _ (gr.adjacency_matrix.get_mem a ha)).1]
    exact hb
  refine ⟨(gr.adjacency_matrix.get ⟨a, ha⟩).get ⟨b, hblen⟩, ?_⟩
  unfold Graph.get_road_type
  rw [pyGet_nat, hrow, Option.some_bind, pyGet_nat]
  exact List.get?_eq_get hblen

theorem get_cost_isSome {cc : CostCalculator} {rt : Int} {t T : Nat}
    (hwfc : WFCost cc T) (ht : t < T) (hrt : -1 ≤ rt ∧ rt ≤ 5)
    (vt : VehicleType) : (cc.get_cost rt t vt).isSome = true := by
  unfold CostCalculator.get_cost
  by_cases h1 : rt = -1
  · simp [h1]
  · by_cases h2 : vt = VehicleType.truck ∧ rt = 0
    · simp [h1, h2]
    · by_cases h3 : rt = 0
      · simp only [h1, h2, h3, if_false, if_true]
        by_cases h4 : vt = VehicleType.truck <;> simp [h4]
      · have hr1 : 1 ≤ rt := by omega
        have hwl := (hwfc.1 rt hr1 hrt.2).1
        have hw := List.get?_eq_get (show t < (cc.road_weights rt).length by omega)
        rcases hwfc with ⟨_, hes, hrf, hwd, hvis⟩
        rw [List.get?_eq_getElem?] at hw
        cases vt with
        | truck =>
          have he := List.get?_eq_get (show t < cc.earth_shock.length by omega)
          have hr := List.get?_eq_get (show t < cc.rainfall.length by omega)
          rw [List.get?_eq_getElem?] at he hr
          simp [h1, h2, h3, hw, CostCalculator.is_blocked, he, hr,
            List.get?_eq_getElem?]
        | drone =>
          have he := List.get?_eq_get (show t < cc.wind.length by omega)
          have hr := List.get?_eq_get (show t < cc.visibility.length by omega)
          rw [List.get?_eq_getElem?] at he hr
          simp [h1, h2, h3, hw, CostCalculator.is_blocked, he, hr,
            List.get?_eq_getElem?]

theorem get_cost_nonneg {cc : CostCalculator} {rt : Int} {t T : Nat}
    {vt : VehicleType} {c : ℚ}
    (hwfc : WFCost cc T) (hrt : -1 ≤ rt ∧ rt ≤ 5)
    (h : cc.get_cost rt t vt = some (some c)) : 0 ≤ c := by
  unfold CostCalculator.get_cost at h
  by_cases h1 : rt = -1
  · simp [h1] at h
  · by_cases h2 : vt = VehicleType.truck ∧ rt = 0
    · simp [h1, h2] at h
    · by_cases h3 : rt = 0
      · have h4 : ¬ (vt = VehicleType.truck) := fun hv => h2 ⟨hv, h3⟩
        simp only [h1, h3, h4, if_false, if_true, false_and, if_neg] at h
        obtain rfl : (0 : ℚ) = c := by simpa using h
        exact le_refl 0
      · simp only [h1, h3, if_false, and_false] at h
        rcases Option.bind_eq_some.mp h with ⟨w, hw, hmap⟩
        rcases Option.map_eq_some'.mp hmap with ⟨b, hb, heq⟩
        have hr1 : 1 ≤ rt := by omega
        have hw0 : 0 ≤ w :=
          (hwfc.1 rt hr1 hrt.2).2 w (List.get?_mem hw)
        have hrtpos : (0 : ℚ) ≤ (rt : ℚ) := by
          have : (0 : Int) ≤ rt := by omega
          exact_mod_cast this
        have hbase : 0 ≤ w * (rt : ℚ) := mul_nonneg hw0 hrtpos
        simp only [Option.some.injEq] at heq
        rw [← heq]
        by_cases hbb : b = true <;> simp only [hbb, if_true, if_false] <;>
          positivity

/-- One iteration of the `get_neighbors` loop as a partial function:
which `(next_node, road_type)` pair (if any) iteration `b` contributes. -/
def nbrFun (gr : Graph) (vt : VehicleType) (a : Nat) (b : Nat) :
    Option (Nat × Int) :=
  (gr.get_road_type (a : Int) (b : Int)).bind fun rt =>
    if rt = -1 ∨ (vt = VehicleType.truck ∧ rt = 0) then none else some (b, rt)

theorem get_neighbors_foldl (gr : Graph) (vt : VehicleType) (a : Nat)
    (l : List Nat) (acc : List (Nat × Int))
    (hl : ∀ b ∈ l, (gr.get_road_type (a : Int) (b : Int)).isSome = true) :
    l.foldl
      (fun acc (next_node : Nat) =>
        acc.bind fun neighbors =>
          (gr.get_road_type (a : Int) (next_node : Int)).map fun road_type =>
            if road_type = -1 then neighbors
            else if vt = VehicleType.truck ∧ road_type = 0 then neighbors
            else neighbors ++ [((next_node, road_type) : Nat × Int)])
      (some acc) = some (acc ++ l.filterMap (nbrFun gr vt a)) := by
  induction l generalizing acc with
  | nil => simp
  | cons b bs ih =>
    have hb := hl b (List.mem_cons_self b bs)
    rcases Option.isSome_iff_exists.mp hb with ⟨rt, hrt⟩
    rw [List.foldl_cons, Option.some_bind, hrt, Option.map_some']
    by_cases h1 : rt = -1
    · rw [if_pos h1,
        ih acc (fun x hx => hl x (List.mem_cons_of_mem b hx))]
      simp [List.filterMap_cons, nbrFun, hrt, h1]
    · rw [if_neg h1]
      by_cases h2 : vt = VehicleType.truck ∧ rt = 0
      · rw [if_pos h2,
          ih acc (fun x hx => hl x (List.mem_cons_of_mem b hx))]
        have hf : nbrFun gr vt a b = none := by
          simp [nbrFun, hrt, h1, h2]
        simp [List.filterMap_cons, hf]
      · rw [if_neg h2,
          ih (acc ++ [(b, rt)]) (fun x hx => hl x (List.mem_cons_of_mem b hx))]
        have hf : nbrFun gr vt a b = some (b, rt) := by
          simp [nbrFun, hrt, h1, h2]
        simp [List.filterMap_cons, hf]

theorem get_neighbors_eq {gr : Graph} (vt : VehicleType) {a : Nat}
    (hwfg : WFGraph gr) (ha : a < gr.num_nodes) :
    gr.get_neighbors (a : Int) vt =
      some ((List.range gr.num_nodes).filterMap (nbrFun gr vt a)) := by
  unfold Graph.get_neighbors
  rw [get_neighbors_foldl gr vt a (List.range gr.num_nodes) []
    (fun b hb => by
      rcases get_road_type_total hwfg ha (List.mem_range.mp hb) with ⟨rt, hrt⟩
      simp [hrt])]
  simp

theorem nbrFun_eq_some {gr : Graph} {vt : VehicleType} {a b' b : Nat}
    {rt : Int} :
    nbrFun gr vt a b' = some (b, rt) ↔
      b' = b ∧ gr.get_road_type (a : Int) (b : Int) = some rt ∧
        ¬ (rt = -1) ∧ ¬ (vt = VehicleType.truck ∧ rt = 0) := by
  unfold nbrFun
  constructor
  · intro h
    rcases Option.bind_eq_some.mp h with ⟨rt', hrt, hif⟩
    by_cases hcond : rt' = -1 ∨ (vt = VehicleType.truck ∧ rt' = 0)
    · rw [if_pos hcond] at hif; simp at hif
    · rw [if_neg hcond] at hif
      simp only [Option.some.injEq, Prod.mk.injEq] at hif
      rcases hif with ⟨rfl, rfl⟩
      rw [not_or] at hcond
      exact ⟨rfl, hrt, hcond.1, hcond.2⟩
  · rintro ⟨rfl, hrt, h1, h2⟩
    rw [hrt, Option.some_bind, if_neg (by tauto)]

theorem mem_get_neighbors {gr : Graph} {vt : VehicleType} {a b : Nat}
    {rt : Int} {nbrs : List (Nat × Int)}
    (hwfg : WFGraph gr) (ha : a < gr.num_nodes)
    (hn : gr.get_neighbors (a : Int) vt = some nbrs) :
    ((b, rt) ∈ nbrs ↔
      b < gr.num_nodes ∧ gr.get_road_type (a : Int) (b : Int) = some rt ∧
        ¬ (rt = -1) ∧ ¬ (vt = VehicleType.truck ∧ rt = 0)) := by
  rw [get_neighbors_eq vt hwfg ha] at hn
  cases hn
  rw [List.mem_filterMap]
  constructor
  · rintro ⟨b', hb', hfun⟩
    rcases nbrFun_eq_some.mp hfun with ⟨rfl, h⟩
    exact ⟨List.mem_range.mp hb', h⟩
  · rintro ⟨hb, h⟩
    exact ⟨b, List.mem_range.mpr hb, nbrFun_eq_some.mpr ⟨rfl, h⟩⟩

theorem get_neighbors_length {gr : Graph} {vt : VehicleType} {a : Nat}
    {nbrs : List (Nat × Int)}
    (hwfg : WFGraph gr) (ha : a < gr.num_nodes)
    (hn : gr.get_neighbors (a : Int) vt = some nbrs) :
    nbrs.length ≤ gr.num_nodes := by
  rw [get_neighbors_eq vt hwfg ha] at hn
  cases hn
  calc ((List.range gr.num_nodes).filterMap (nbrFun gr vt a)).length
      ≤ (List.range gr.num_nodes).length := List.length_filterMap_le _ _
    _ = gr.num_nodes := List.length_range _

/-- One iteration of the move-expansion loop as a partial function:
which entry (if any) neighbor `nb` pushes. -/
def moveFun (ctx : SearchCtx) (g : ℚ) (tm : Nat) (path : List Nat)
    (nb : Nat × Int) : Option Entry :=
  (ctx.cost_calc.get_cost nb.2 tm ctx.vehicle_type).bind fun oc =>
    oc.map fun c => Entry.mk (g + c) (g + c) nb.1 (tm + 1) (path ++ [nb.1])

theorem expandMoves_eq (ctx : SearchCtx) (g : ℚ) (tm : Nat)
    (path : List Nat) (nbrs : List (Nat × Int))
    (hall : ∀ nb ∈ nbrs,
      (ctx.cost_calc.get_cost nb.2 tm ctx.vehicle_type).isSome = true) :
    expandMoves ctx g tm path nbrs =
      some (nbrs.filterMap (moveFun ctx g tm path)) := by
  unfold expandMoves
  suffices h : ∀ acc : List Entry,
      nbrs.foldl
        (fun acc nb =>
          acc.bind fun entries =>
            (ctx.cost_calc.get_cost nb.2 tm ctx.vehicle_type).map
              fun edge_cost =>
                match edge_cost with
                | none => entries
                | some c =>
                  entries ++
                    [Entry.mk (g + c) (g + c) nb.1 (tm + 1) (path ++ [nb.1])])
        (some acc) = some (acc ++ nbrs.filterMap (moveFun ctx g tm path)) by
    simpa using h []
  induction nbrs with
  | nil => simp
  | cons nb nbs ih =>
    intro acc
    have hnb := hall nb (List.mem_cons_self nb nbs)
    rcases Option.isSome_iff_exists.mp hnb with ⟨oc, hoc⟩
    rw [List.foldl_cons, Option.some_bind, hoc, Option.map_some']
    have ih2 := fun acc =>
      ih (fun x hx => hall x (List.mem_cons_of_mem nb hx)) acc
    cases oc with
    | none =>
      rw [ih2 acc]
      have hf : moveFun ctx g tm path nb = none := by simp [moveFun, hoc]
      simp [List.filterMap_cons, hf]
    | some c =>
      rw [ih2 (acc ++ [Entry.mk (g + c) (g + c) nb.1 (tm + 1) (path ++ [nb.1])])]
      have hf : moveFun ctx g tm path nb =
          some (Entry.mk (g + c) (g + c) nb.1 (tm + 1) (path ++ [nb.1])) := by
        simp [moveFun, hoc]
      simp [List.filterMap_cons, hf]

theorem moveFun_eq_some {ctx : SearchCtx} {g : ℚ} {tm : Nat}
    {path : List Nat} {nb : Nat × Int} {e : Entry} :
    moveFun ctx g tm path nb = some e ↔
      ∃ c, ctx.cost_calc.get_cost nb.2 tm ctx.vehicle_type = some (some c) ∧
        e = Entry.mk (g + c) (g + c) nb.1 (tm + 1) (path ++ [nb.1]) := by
  unfold moveFun
  constructor
  · intro h
    rcases Option.bind_eq_some.mp h with ⟨oc, hoc, hmap⟩
    rcases Option.map_eq_some'.mp hmap with ⟨c, hc, heq⟩
    cases hc
    exact ⟨c, hoc, heq.symm⟩
  · rintro ⟨c, hc, rfl⟩
    rw [hc, Option.some_bind, Option.map_some']

theorem stepCost_move {gr : Graph} {cc : CostCalculator} {vt : VehicleType}
    {t a b : Nat} {c : ℚ} (hab : ¬ (a = b))
    (h : stepCost gr cc vt t a b = some c) :
    ∃ rt, gr.get_road_type (a : Int) (b : Int) = some rt ∧
      cc.get_cost rt t vt = some (some c) := by
  unfold stepCost at h
  rw [if_neg hab] at h
  rcases Option.bind_eq_some.mp h with ⟨rt, hrt, hoc⟩
  rcases Option.bind_eq_some.mp hoc with ⟨oc, hoc2, hc⟩
  cases hc
  exact ⟨rt, hrt, hoc2⟩

theorem stepCost_nonneg {gr : Graph} {cc : CostCalculator} {vt : VehicleType}
    {t T a b : Nat} {c : ℚ} (hwfg : WFGraph gr) (hwfc : WFCost cc T)
    (h : stepCost gr cc vt t a b = some c) : 0 ≤ c := by
  by_cases hab : a = b
  · unfold stepCost at h
    rw [if_pos hab] at h
    cases h
    exact le_refl 0
  · rcases stepCost_move hab h with ⟨rt, hrt, hoc⟩
    exact get_cost_nonneg hwfc (get_road_type_mem_range hwfg hrt) hoc

theorem stepCost_lt {gr : Graph} {cc : CostCalculator} {vt : VehicleType}
    {t a b : Nat} {c : ℚ} (hwfg : WFGraph gr) (hab : ¬ (a = b))
    (h : stepCost gr cc vt t a b = some c) :
    a < gr.num_nodes ∧ b < gr.num_nodes := by
  rcases stepCost_move hab h with ⟨rt, hrt, _⟩
  exact get_road_type_lt hwfg hrt

theorem stepCost_wait (gr : Graph) (cc : CostCalculator) (vt : VehicleType)
    (t a : Nat) : stepCost gr cc vt t a a = some 0 := by
  simp [stepCost]

theorem schedCost_nil (gr : Graph) (cc : CostCalculator) (vt : VehicleType)
    (t : Nat) : schedCost gr cc vt t [] = some 0 := rfl

theorem schedCost_singleton (gr : Graph) (cc : CostCalculator)
    (vt : VehicleType) (t a : Nat) : schedCost gr cc vt t [a] = some 0 := rfl

theorem schedCost_cons_cons (gr : Graph) (cc : CostCalculator)
    (vt : VehicleType) (t a b : Nat) (rest : List Nat) :
    schedCost gr cc vt t (a :: b :: rest) =
      (stepCost gr cc vt t a b).bind fun c =>
        (schedCost gr cc vt (t + 1) (b :: rest)).map fun d => c + d := rfl

theorem schedCost_snoc (gr : Graph) (cc : CostCalculator) (vt : VehicleType) :
    ∀ (p : List Nat) (t : Nat) (x b : Nat), p.getLast? = some x →
      schedCost gr cc vt t (p ++ [b]) =
        (schedCost gr cc vt t p).bind fun c =>
          (stepCost gr cc vt (t + (p.length - 1)) x b).map fun d => c + d := by
  intro p
  induction p with
  | nil => intro t x b h; simp at h
  | cons a rest ih =>
    intro t x b h
    cases rest with
    | nil =>
      have hx : x = a := by
        rw [List.getLast?_singleton, Option.some.injEq] at h
        exact h.symm
      subst hx
      simp only [List.cons_append, List.nil_append, schedCost_cons_cons,
        schedCost_singleton, List.length_singleton]
      cases hs : stepCost gr cc vt t x b <;> simp [hs]
    | cons a2 rest2 =>
      have hlast : (a2 :: rest2).getLast? = some x := by
        rw [← List.getLast?_cons_cons (a := a)]
        exact h
      have hrec := ih (t + 1) x b hlast
      simp only [List.cons_append] at hrec ⊢
      rw [schedCost_cons_cons, schedCost_cons_cons, hrec]
      have harith : t + 1 + ((a2 :: rest2).length - 1) =
          t + ((a :: a2 :: rest2).length - 1) := by
        simp only [List.length_cons]
        omega
      rw [harith]
      cases hs : stepCost gr cc vt t a a2 with
      | none => simp
      | some c1 =>
        simp only [Option.some_bind]
        cases hrest : schedCost gr cc vt (t + 1) (a2 :: rest2) with
        | none => simp
        | some c2 =>
          simp only [Option.some_bind, Option.map_some']
          cases hstep : stepCost gr cc vt
              (t + ((a :: a2 :: rest2).length - 1)) x b with
          | none => simp
          | some d =>
            simp only [hstep, Option.map_some', Option.some_bind,
              Option.map_some']
            rw [add_assoc]

theorem schedCost_take_isSome (gr : Graph) (cc : CostCalculator)
    (vt : VehicleType) :
    ∀ (p : List Nat) (t k : Nat) (c : ℚ), schedCost gr cc vt t p = some c →
      ∃ c', schedCost gr cc vt t (p.take k) = some c' := by
  intro p
  induction p with
  | nil =>
    intro t k c _
    exact ⟨0, by simp [schedCost_nil]⟩
  | cons a rest ih =>
    intro t k c h
    cases rest with
    | nil =>
      cases k with
      | zero => exact ⟨0, rfl⟩
      | succ k => exact ⟨0, by cases k <;> rfl⟩
    | cons b rest2 =>
      cases k with
      | zero => exact ⟨0, rfl⟩
      | succ k =>
        cases k with
        | zero => exact ⟨0, rfl⟩
        | succ k2 =>
          rw [schedCost_cons_cons] at h
          rcases Option.bind_eq_some.mp h with ⟨c1, hc1, hmap⟩
          rcases Option.map_eq_some'.mp hmap with ⟨c2, hc2, rfl⟩
          rcases ih (t + 1) (k2 + 1) c2 hc2 with ⟨c', hc'⟩
          refine ⟨c1 + c', ?_⟩
          show schedCost gr cc vt t (a :: b :: (rest2.take k2)) = _
          rw [schedCost_cons_cons, hc1, Option.some_bind]
          have hc'2 : schedCost gr cc vt (t + 1) (b :: rest2.take k2) =
              some c' := hc'
          rw [hc'2, Option.map_some']

theorem schedCost_nonneg {gr : Graph} {cc : CostCalculator}
    {vt : VehicleType} (hwfg : WFGraph gr) {T : Nat} (hwfc : WFCost cc T) :
    ∀ (p : List Nat) (t : Nat) (c : ℚ), schedCost gr cc vt t p = some c →
      0 ≤ c := by
  intro p
  induction p with
  | nil =>
    intro t c h
    rw [schedCost_nil, Option.some.injEq] at h
    rw [← h]
  | cons a rest ih =>
    intro t c h
    cases rest with
    | nil =>
      rw [schedCost_singleton, Option.some.injEq] at h
      rw [← h]
    | cons b rest2 =>
      rw [schedCost_cons_cons] at h
      rcases Option.bind_eq_some.mp h with ⟨c1, hc1, hmap⟩
      rcases Option.map_eq_some'.mp hmap with ⟨c2, hc2, rfl⟩
      have h1 := stepCost_nonneg hwfg hwfc hc1
      have h2 := ih (t + 1) c2 hc2
      positivity

theorem schedCost_take_le {gr : Graph} {cc : CostCalculator}
    {vt : VehicleType} (hwfg : WFGraph gr) {T : Nat} (hwfc : WFCost cc T) :
    ∀ (p : List Nat) (t k : Nat) (c c' : ℚ),
      schedCost gr cc vt t p = some c →
      schedCost gr cc vt t (p.take k) = some c' → c' ≤ c := by
  intro p
  induction p with
  | nil =>
    intro t k c c' h h'
    rw [List.take_nil] at h'
    rw [schedCost_nil, Option.some.injEq] at h h'
    rw [← h, ← h']
  | cons a rest ih =>
    intro t k c c' h h'
    cases rest with
    | nil =>
      have hc0 : (0 : ℚ) ≤ c := schedCost_nonneg hwfg hwfc _ t c h
      cases k with
      | zero =>
        rw [List.take_zero, schedCost_nil, Option.some.injEq] at h'
        rw [← h']; exact hc0
      | succ k =>
        have h1 : ([a] : List Nat).take (k + 1) = [a] := by cases k <;> rfl
        rw [h1] at h'
        rw [schedCost_singleton, Option.some.injEq] at h'
        rw [← h']; exact hc0
    | cons b rest2 =>
      cases k with
      | zero =>
        rw [List.take_zero, schedCost_nil, Option.some.injEq] at h'
        rw [← h']
        exact schedCost_nonneg hwfg hwfc _ t c h
      | succ k =>
        cases k with
        | zero =>
          have h1 : schedCost gr cc vt t [a] = some c' := h'
          rw [schedCost_singleton, Option.some.injEq] at h1
          rw [← h1]
          exact schedCost_nonneg hwfg hwfc _ t c h
        | succ k2 =>
          rw [schedCost_cons_cons] at h
          rcases Option.bind_eq_some.mp h with ⟨c1, hc1, hmap⟩
          rcases Option.map_eq_some'.mp hmap with ⟨c2, hc2, rfl⟩
          have h2 : schedCost gr cc vt t (a :: b :: rest2.take k2) =
              some c' := h'
          rw [schedCost_cons_cons, hc1, Option.some_bind] at h2
          rcases Option.map_eq_some'.mp h2 with ⟨c2', hc2', rfl⟩
          have := ih (t + 1) (k2 + 1) c2 c2' hc2 hc2'
          linarith

theorem schedCost_step (gr : Graph) (cc : CostCalculator)
    (vt : VehicleType) :
    ∀ (p : List Nat) (t : Nat) (c : ℚ), schedCost gr cc vt t p = some c →
      ∀ k, k + 1 < p.length →
        ∃ ck, stepCost gr cc vt (t + k) (p.getD k 0) (p.getD (k + 1) 0) =
          some ck := by
  intro p
  induction p with
  | nil =>
    intro t c _ k hk
    simp at hk
  | cons a rest ih =>
    intro t c h k hk
    cases rest with
    | nil => simp at hk
    | cons b rest2 =>
      rw [schedCost_cons_cons] at h
      rcases Option.bind_eq_some.mp h with ⟨c1, hc1, hmap⟩
      rcases Option.map_eq_some'.mp hmap with ⟨c2, hc2, rfl⟩
      cases k with
      | zero => exact ⟨c1, by simpa using hc1⟩
      | succ k =>
        have hk2 : k + 1 < (b :: rest2).length := by
          simp only [List.length_cons] at hk ⊢
          omega
        rcases ih (t + 1) c2 hc2 k hk2 with ⟨ck, hck⟩
        refine ⟨ck, ?_⟩
        have harith : t + 1 + k = t + (k + 1) := by omega
        rw [harith] at hck
        simpa using hck

theorem getLast?_take_getD {p : List Nat} {k : Nat} (hk : k < p.length) :
    (p.take (k + 1)).getLast? = some (p.getD k 0) := by
  rw [List.getLast?_eq_getElem?, List.length_take]
  have hlen : min (k + 1) p.length = k + 1 := by omega
  rw [hlen]
  simp only [Nat.add_sub_cancel, List.getElem?_take, lt_add_iff_pos_right,
    zero_lt_one, if_true]
  rw [List.getElem?_eq_getElem hk, List.getD_eq_getElem _ _ hk]

theorem head?_getD {p : List Nat} {s : Nat} (h : p.head? = some s) :
    p.getD 0 0 = s := by
  cases p with
  | nil => simp at h
  | cons a rest =>
    rw [List.head?_cons, Option.some.injEq] at h
    rw [← h]
    rfl

theorem getLast?_getD {p : List Nat} {x : Nat} (h : p.getLast? = some x) :
    p.getD (p.length - 1) 0 = x := by
  rw [List.getLast?_eq_getElem?] at h
  have hlen : p.length - 1 < p.length := by
    cases p with
    | nil => simp at h
    | cons a rest => simp
  rw [List.getElem?_eq_getElem hlen, Option.some.injEq] at h
  rw [List.getD_eq_getElem _ _ hlen, h]

theorem schedCost_take_one {gr : Graph} {cc : CostCalculator}
    {vt : VehicleType} {p : List Nat} {s : Nat} (t : Nat)
    (h : p.head? = some s) :
    schedCost gr cc vt t (p.take 1) = some 0 := by
  cases p with
  | nil => simp at h
  | cons a rest => rfl

theorem schedCost_take_succ (gr : Graph) (cc : CostCalculator)
    (vt : VehicleType) {p : List Nat} {t k : Nat} {c' ck : ℚ}
    (hk : k + 1 < p.length)
    (h : schedCost gr cc vt t (p.take (k + 1)) = some c')
    (hstep : stepCost gr cc vt (t + k) (p.getD k 0) (p.getD (k + 1) 0) =
      some ck) :
    schedCost gr cc vt t (p.take (k + 2)) = some (c' + ck) := by
  have htake : p.take (k + 2) = p.take (k + 1) ++ [p.getD (k + 1) 0] := by
    rw [List.take_succ, List.getElem?_eq_getElem hk,
      List.getD_eq_getElem _ _ hk]
    rfl
  rw [htake,
    schedCost_snoc gr cc vt (p.take (k + 1)) t (p.getD k 0) (p.getD (k + 1) 0)
      (getLast?_take_getD (by omega)), h, Option.some_bind]
  have hlen : (p.take (k + 1)).length - 1 = k := by
    rw [List.length_take]
    omega
  rw [hlen, hstep, Option.map_some']

theorem popMin_eq_none {pq : List Entry} (h : popMin pq = none) : pq = [] := by
  cases pq with
  | nil => rfl
  | cons x xs => simp [popMin] at h

theorem get_cost_some_valid {cc : CostCalculator} {rt : Int} {t : Nat}
    {vt : VehicleType} {c : ℚ} (h : cc.get_cost rt t vt = some (some c)) :
    ¬ (rt = -1) ∧ ¬ (vt = VehicleType.truck ∧ rt = 0) := by
  unfold CostCalculator.get_cost at h
  by_cases h1 : rt = -1
  · simp [h1] at h
  · by_cases h2 : vt = VehicleType.truck ∧ rt = 0
    · simp [h1, h2] at h
    · exact ⟨h1, h2⟩

theorem visitedLE_true {visited : Nat × Nat → Option ℚ} {s : Nat × Nat}
    {g : ℚ} (h : visitedLE visited s g = true) :
    ∃ v, visited s = some v ∧ v ≤ g := by
  unfold visitedLE at h
  cases hv : visited s with
  | none => rw [hv] at h; simp at h
  | some v =>
    rw [hv] at h
    simp only [decide_eq_true_eq] at h
    exact ⟨v, rfl, h⟩

theorem visitedLE_false {visited : Nat × Nat → Option ℚ} {s : Nat × Nat}
    {g v : ℚ} (h : visitedLE visited s g = false) (hv : visited s = some v) :
    g < v := by
  unfold visitedLE at h
  rw [hv] at h
  simp only [decide_eq_false_iff_not, not_le] at h
  exact h

theorem pqMeasure_perm {N T : Nat} {l1 l2 : List Entry}
    (h : List.Perm l1 l2) : pqMeasure N T l1 = pqMeasure N T l2 :=
  List.Perm.sum_eq (List.Perm.map _ h)

theorem pqMeasure_append (N T : Nat) (l1 l2 : List Entry) :
    pqMeasure N T (l1 ++ l2) = pqMeasure N T l1 + pqMeasure N T l2 := by
  unfold pqMeasure
  rw [List.map_append, List.sum_append]

theorem pqMeasure_cons (N T : Nat) (e : Entry) (l : List Entry) :
    pqMeasure N T (e :: l) = entryWeight N T e + pqMeasure N T l := by
  unfold pqMeasure
  rw [List.map_cons, List.sum_cons]

theorem entryWeight_pos (N T : Nat) (e : Entry) :
    1 ≤ entryWeight N T e :=
  Nat.one_le_pow _ _ (by omega)

theorem pqMeasure_const {N T : Nat} {l : List Entry} {w : Nat}
    (h : ∀ e ∈ l, entryWeight N T e = w) :
    pqMeasure N T l = l.length * w := by
  induction l with
  | nil => simp [pqMeasure]
  | cons x xs ih =>
    rw [pqMeasure_cons, h x (List.mem_cons_self x xs),
      ih (fun e he => h e (List.mem_cons_of_mem x he))]
    simp [List.length_cons]
    ring

theorem head?_append_singleton {p : List Nat} {x : Nat} (h : p ≠ []) :
    (p ++ [x]).head? = p.head? := by
  cases p with
  | nil => exact absurd rfl h
  | cons a rest => rfl

section DijkstraInvariant

variable (ctx : SearchCtx) (s0 t0 : Nat)

/-- Soundness data carried by every frontier entry: `f = g`, the path is
a legal schedule from the start state ending at the entry's node, the
time matches the path length, and `g` dominates the schedule cost. -/
def EntryOK (e : Entry) : Prop :=
  e.f = e.g ∧ e.path ≠ [] ∧ e.path.head? = some s0 ∧
  e.path.getLast? = some e.nd ∧ e.tm = t0 + (e.path.length - 1) ∧
  e.nd < ctx.graph.num_nodes ∧ e.tm ≤ ctx.T ∧
  ∃ c, schedCost ctx.graph ctx.cost_calc ctx.vehicle_type t0 e.path =
      some c ∧ c ≤ e.g

/-- The feasible schedules of the search at hand. -/
def Rq (q : List Nat) : Prop :=
  ReachesByH ctx.graph ctx.cost_calc ctx.vehicle_type s0 t0 ctx.target_node
    ctx.deadline ctx.T q

/-- Frontier witness: some queue entry sits on state `k` of schedule `q`
with accumulated cost at most the prefix cost. -/
def Awit (pq : List Entry) (q : List Nat) (k : Nat) : Prop :=
  k < q.length ∧ ∃ e ∈ pq, e.nd = q.getD k 0 ∧ e.tm = t0 + k ∧
    ∃ c, schedCost ctx.graph ctx.cost_calc ctx.vehicle_type t0
        (q.take (k + 1)) = some c ∧ e.g ≤ c

/-- Visited witness: state `k` of schedule `q` was expanded with a
settled cost at most the prefix cost. -/
def Vwit (visited : Nat × Nat → Option ℚ) (q : List Nat) (k : Nat) : Prop :=
  k < q.length ∧ ∃ v, visited (q.getD k 0, t0 + k) = some v ∧
    ∃ c, schedCost ctx.graph ctx.cost_calc ctx.vehicle_type t0
        (q.take (k + 1)) = some c ∧ v ≤ c

/-- A state the loop does not throw away when popped: within the
deadline, and within the horizon unless it is the target. -/
def Alive (s : Nat × Nat) : Prop :=
  s.2 ≤ ctx.deadline ∧ (s.2 < ctx.T ∨ s.1 = ctx.target_node)

/-- Every expansion recorded in `visited` has pushed all its
successors: each legal step out of a visited state leads to a state
covered either by a frontier entry or by a visited state, with the
accumulated bound. -/
def VisSucc (pq : List Entry) (visited : Nat × Nat → Option ℚ) : Prop :=
  ∀ a t v, visited (a, t) = some v →
    ∀ b c, stepCost ctx.graph ctx.cost_calc ctx.vehicle_type t a b = some c →
      Alive ctx (b, t + 1) →
      (∃ e ∈ pq, e.nd = b ∧ e.tm = t + 1 ∧ e.g ≤ v + c) ∨
      (∃ v', visited (b, t + 1) = some v' ∧ v' ≤ v + c)

/-- Only expandable non-target states are ever recorded in `visited`. -/
def VisDom (visited : Nat × Nat → Option ℚ) : Prop :=
  ∀ a t v, visited (a, t) = some v →
    t < ctx.T ∧ t ≤ ctx.deadline ∧ ¬ (a = ctx.target_node)

/-- The loop invariant of `_find_path`. -/
structure SearchInv (pq : List Entry) (visited : Nat × Nat → Option ℚ) :
    Prop where
  entries : ∀ e ∈ pq, EntryOK ctx s0 t0 e
  reach : ∀ q, Rq ctx s0 t0 q →
    ∃ k, Awit ctx t0 pq q k ∨ Vwit ctx t0 visited q k
  vis_succ : VisSucc ctx pq visited
  vis_dom : VisDom ctx visited

end DijkstraInvariant

theorem Rq_elim {ctx : SearchCtx} {s0 t0 : Nat} {q : List Nat}
    (h : Rq ctx s0 t0 q) :
    q.head? = some s0 ∧ q.getLast? = some ctx.target_node ∧
    schedCost ctx.graph ctx.cost_calc ctx.vehicle_type t0 q ≠ none ∧
    t0 + (q.length - 1) ≤ ctx.deadline ∧ t0 + (q.length - 1) ≤ ctx.T := by
  obtain ⟨⟨h1, h2, h3, h4⟩, h5⟩ := h
  exact ⟨h1, h2, h3, h4, h5⟩

theorem Rq_intro {ctx : SearchCtx} {s0 t0 : Nat} {q : List Nat}
    (h1 : q.head? = some s0) (h2 : q.getLast? = some ctx.target_node)
    (h3 : schedCost ctx.graph ctx.cost_calc ctx.vehicle_type t0 q ≠ none)
    (h4 : t0 + (q.length - 1) ≤ ctx.deadline)
    (h5 : t0 + (q.length - 1) ≤ ctx.T) : Rq ctx s0 t0 q :=
  ⟨⟨h1, h2, h3, h4⟩, h5⟩

theorem Rq_length_pos {ctx : SearchCtx} {s0 t0 : Nat} {q : List Nat}
    (h : Rq ctx s0 t0 q) : 1 ≤ q.length := by
  have h1 := (Rq_elim h).1
  cases q with
  | nil => simp at h1
  | cons a rest => simp

theorem Rq_alive {ctx : SearchCtx} {s0 t0 : Nat} {q : List Nat} {k : Nat}
    (hq : Rq ctx s0 t0 q) (hk : k < q.length) :
    Alive ctx (q.getD k 0, t0 + k) := by
  obtain ⟨_, hlast, _, hdl, hT⟩ := Rq_elim hq
  constructor
  · show t0 + k ≤ ctx.deadline
    omega
  · by_cases hke : k = q.length - 1
    · right
      show q.getD k 0 = ctx.target_node
      rw [hke]
      exact getLast?_getD hlast
    · left
      show t0 + k < ctx.T
      omega

theorem chain_to_frontier {ctx : SearchCtx} {s0 t0 : Nat}
    {pq : List Entry} {visited : Nat × Nat → Option ℚ}
    (hsucc : VisSucc ctx pq visited) (hdom : VisDom ctx visited)
    {q : List Nat} (hq : Rq ctx s0 t0 q) :
    ∀ n k, q.length - k ≤ n →
      (Awit ctx t0 pq q k ∨ Vwit ctx t0 visited q k) →
      ∃ k', Awit ctx t0 pq q k' := by
  intro n
  induction n with
  | zero =>
    intro k hn hw
    rcases hw with hA | hV
    · have := hA.1
      omega
    · have := hV.1
      omega
  | succ n ih =>
    intro k hn hw
    rcases hw with hA | hV
    · exact ⟨k, hA⟩
    · obtain ⟨hk, v, hv, c, hc, hvc⟩ := hV
      obtain ⟨hhead, hlast, hcost, hdl, hT⟩ := Rq_elim hq
      have hdomk := hdom _ _ _ hv
      have hlen1 : 1 ≤ q.length := Rq_length_pos hq
      have hkne : ¬ (k = q.length - 1) := by
        intro hke
        apply hdomk.2.2
        rw [hke]
        exact getLast?_getD hlast
      have hk1 : k + 1 < q.length := by omega
      obtain ⟨cq, hcq⟩ := Option.ne_none_iff_exists'.mp hcost
      obtain ⟨ck, hck⟩ := schedCost_step ctx.graph ctx.cost_calc
        ctx.vehicle_type q t0 cq hcq k hk1
      have halive : Alive ctx (q.getD (k + 1) 0, (t0 + k) + 1) := by
        have h2 := Rq_alive hq hk1
        have harith : t0 + (k + 1) = (t0 + k) + 1 := by omega
        rw [harith] at h2
        exact h2
      have hc1 : schedCost ctx.graph ctx.cost_calc ctx.vehicle_type t0
          (q.take (k + 2)) = some (c + ck) :=
        schedCost_take_succ ctx.graph ctx.cost_calc ctx.vehicle_type hk1 hc hck
      rcases hsucc _ _ _ hv (q.getD (k + 1) 0) ck hck halive with
        ⟨e, he, hend, hetm, heg⟩ | ⟨v', hv', hv'le⟩
      · refine ⟨k + 1, hk1, e, he, hend, ?_, c + ck, hc1, ?_⟩
        · omega
        · linarith
      · apply ih (k + 1) (by omega)
        right
        refine ⟨hk1, v', ?_, c + ck, hc1, by linarith⟩
        have harith : t0 + (k + 1) = (t0 + k) + 1 := by omega
        rw [harith]
        exact hv'

theorem dead_entry {ctx : SearchCtx} {e : Entry}
    (hnret : ¬ (e.nd = ctx.target_node ∧ e.tm ≤ ctx.deadline))
    (hdis : ctx.T ≤ e.tm ∨ ctx.deadline < e.tm) (hT : e.tm ≤ ctx.T) :
    ¬ Alive ctx (e.nd, e.tm) := by
  rintro ⟨h1, h2⟩
  have hTle : ctx.T ≤ e.tm := by
    rcases hdis with h | h
    · exact h
    · exact absurd h1 (by omega)
  rcases h2 with h | h
  · exact absurd h (by omega)
  · exact hnret ⟨h, h1⟩

theorem mem_of_popMin {pq rest : List Entry} {e x : Entry}
    (hpop : popMin pq = some (e, rest)) (hx : x ∈ pq) :
    x = e ∨ x ∈ rest := by
  have hperm := popMin_perm hpop
  rcases List.mem_cons.mp (hperm.mem_iff.mp hx) with h | h
  · exact Or.inl h
  · exact Or.inr h

theorem rest_subset_of_popMin {pq rest : List Entry} {e x : Entry}
    (hpop : popMin pq = some (e, rest)) (hx : x ∈ rest) : x ∈ pq := by
  have hperm := popMin_perm hpop
  exact hperm.mem_iff.mpr (List.mem_cons.mpr (Or.inr hx))

theorem inv_discard (ctx : SearchCtx) (s0 t0 : Nat) {pq rest : List Entry}
    {visited : Nat × Nat → Option ℚ} {e : Entry}
    (hpop : popMin pq = some (e, rest))
    (hinv : SearchInv ctx s0 t0 pq visited)
    (hnret : ¬ (e.nd = ctx.target_node ∧ e.tm ≤ ctx.deadline))
    (hdis : ctx.T ≤ e.tm ∨ ctx.deadline < e.tm) :
    SearchInv ctx s0 t0 rest visited := by
  have hdead : ¬ Alive ctx (e.nd, e.tm) :=
    dead_entry hnret hdis
      (hinv.entries e (popMin_mem hpop)).2.2.2.2.2.2.1
  constructor
  · intro x hx
    exact hinv.entries x (rest_subset_of_popMin hpop hx)
  · intro q hq
    rcases hinv.reach q hq with ⟨k, hA | hV⟩
    · obtain ⟨hk, e', he', hend, hetm, hcost⟩ := hA
      rcases mem_of_popMin hpop he' with rfl | hmem
      · exfalso
        apply hdead
        have := Rq_alive hq hk
        rw [← hend] at this
        rw [← hetm] at this
        exact this
      · exact ⟨k, Or.inl ⟨hk, e', hmem, hend, hetm, hcost⟩⟩
    · exact ⟨k, Or.inr hV⟩
  · intro a t v hv b c hstep halive
    rcases hinv.vis_succ a t v hv b c hstep halive with
      ⟨e', he', hend, hetm, heg⟩ | h2
    · rcases mem_of_popMin hpop he' with rfl | hmem
      · exfalso
        apply hdead
        rw [hend, hetm]
        exact halive
      · exact Or.inl ⟨e', hmem, hend, hetm, heg⟩
    · exact Or.inr h2
  · exact hinv.vis_dom

theorem inv_prune (ctx : SearchCtx) (s0 t0 : Nat) {pq rest : List Entry}
    {visited : Nat × Nat → Option ℚ} {e : Entry}
    (hpop : popMin pq = some (e, rest))
    (hinv : SearchInv ctx s0 t0 pq visited)
    (hvle : visitedLE visited (e.nd, e.tm) e.g = true) :
    SearchInv ctx s0 t0 rest visited := by
  obtain ⟨v0, hv0, hv0le⟩ := visitedLE_true hvle
  constructor
  · intro x hx
    exact hinv.entries x (rest_subset_of_popMin hpop hx)
  · intro q hq
    rcases hinv.reach q hq with ⟨k, hA | hV⟩
    · obtain ⟨hk, e', he', hend, hetm, c, hc, hcle⟩ := hA
      rcases mem_of_popMin hpop he' with rfl | hmem
      · refine ⟨k, Or.inr ⟨hk, v0, ?_, c, hc, by linarith⟩⟩
        rw [← hend, ← hetm]
        exact hv0
      · exact ⟨k, Or.inl ⟨hk, e', hmem, hend, hetm, c, hc, hcle⟩⟩
    · exact ⟨k, Or.inr hV⟩
  · intro a t v hv b c hstep halive
    rcases hinv.vis_succ a t v hv b c hstep halive with
      ⟨e', he', hend, hetm, heg⟩ | h2
    · rcases mem_of_popMin hpop he' with rfl | hmem
      · refine Or.inr ⟨v0, ?_, by linarith⟩
        rw [← hend, ← hetm]
        exact hv0
      · exact Or.inl ⟨e', hmem, hend, hetm, heg⟩
    · exact Or.inr h2
  · exact hinv.vis_dom

theorem stepCost_wait_inv {gr : Graph} {cc : CostCalculator}
    {vt : VehicleType} {t a : Nat} {c : ℚ}
    (h : stepCost gr cc vt t a a = some c) : c = 0 := by
  rw [stepCost_wait] at h
  cases h
  rfl

theorem entryOK_wait {ctx : SearchCtx} {s0 t0 : Nat} {e : Entry}
    (hok : EntryOK ctx s0 t0 e) (htm : e.tm < ctx.T) :
    EntryOK ctx s0 t0 (Entry.mk e.g e.g e.nd (e.tm + 1) (e.path ++ [e.nd])) := by
  obtain ⟨hf, hne, hhead, hlast, htmeq, hnd, hT, c, hc, hcle⟩ := hok
  refine ⟨rfl, by simp, ?_, ?_, ?_, hnd, ?_, ?_⟩
  · rw [head?_append_singleton hne]
    exact hhead
  · exact List.getLast?_concat _
  · show e.tm + 1 = t0 + ((e.path ++ [e.nd]).length - 1)
    rw [List.length_append, List.length_singleton]
    have hlen : 1 ≤ e.path.length := by
      cases hp : e.path with
      | nil => exact absurd hp hne
      | cons x xs => simp [hp]
    omega
  · show e.tm + 1 ≤ ctx.T
    omega
  · refine ⟨c, ?_, hcle⟩
    rw [schedCost_snoc ctx.graph ctx.cost_calc ctx.vehicle_type e.path t0
      e.nd e.nd hlast, hc, Option.some_bind, ← htmeq, stepCost_wait,
      Option.map_some', add_zero]

theorem entryOK_move {ctx : SearchCtx} {s0 t0 : Nat} {e : Entry} {b : Nat}
    {rt : Int} {c : ℚ}
    (hwfg : WFGraph ctx.graph) (hwfc : WFCost ctx.cost_calc ctx.T)
    (hok : EntryOK ctx s0 t0 e) (htm : e.tm < ctx.T)
    (hb : b < ctx.graph.num_nodes)
    (hroad : ctx.graph.get_road_type (e.nd : Int) (b : Int) = some rt)
    (hcost : ctx.cost_calc.get_cost rt e.tm ctx.vehicle_type =
      some (some c)) :
    EntryOK ctx s0 t0
      (Entry.mk (e.g + c) (e.g + c) b (e.tm + 1) (e.path ++ [b])) := by
  obtain ⟨hf, hne, hhead, hlast, htmeq, hnd, hT, cp, hcp, hcple⟩ := hok
  have hc0 : 0 ≤ c :=
    get_cost_nonneg hwfc (get_road_type_mem_range hwfg hroad) hcost
  refine ⟨rfl, by simp, ?_, ?_, ?_, hb, ?_, ?_⟩
  · rw [head?_append_singleton hne]
    exact hhead
  · exact List.getLast?_concat _
  · show e.tm + 1 = t0 + ((e.path ++ [b]).length - 1)
    rw [List.length_append, List.length_singleton]
    have hlen : 1 ≤ e.path.length := by
      cases hp : e.path with
      | nil => exact absurd hp hne
      | cons x xs => simp [hp]
    omega
  · show e.tm + 1 ≤ ctx.T
    omega
  · show ∃ cn, schedCost ctx.graph ctx.cost_calc ctx.vehicle_type t0
        (e.path ++ [b]) = some cn ∧ cn ≤ e.g + c
    rw [schedCost_snoc ctx.graph ctx.cost_calc ctx.vehicle_type e.path t0
      e.nd b hlast, hcp, Option.some_bind, ← htmeq]
    by_cases hab : e.nd = b
    · rw [← hab, stepCost_wait, Option.map_some', add_zero]
      exact ⟨cp, rfl, by linarith⟩
    · have hstep : stepCost ctx.graph ctx.cost_calc ctx.vehicle_type
          e.tm e.nd b = some c := by
        unfold stepCost
        rw [if_neg hab, hroad, Option.some_bind, hcost, Option.some_bind]
      rw [hstep, Option.map_some']
      exact ⟨cp + c, rfl, by linarith⟩

theorem moves_mem_iff {ctx : SearchCtx} {e : Entry} {nbrs : List (Nat × Int)}
    {moves : List Entry} {x : Entry}
    (hmeq : moves = nbrs.filterMap (moveFun ctx e.g e.tm e.path)) :
    x ∈ moves ↔ ∃ b rt c, (b, rt) ∈ nbrs ∧
      ctx.cost_calc.get_cost rt e.tm ctx.vehicle_type = some (some c) ∧
      x = Entry.mk (e.g + c) (e.g + c) b (e.tm + 1) (e.path ++ [b]) := by
  rw [hmeq, List.mem_filterMap]
  constructor
  · rintro ⟨nb, hnb, hfun⟩
    rcases moveFun_eq_some.mp hfun with ⟨c, hc, hx⟩
    exact ⟨nb.1, nb.2, c, hnb, hc, hx⟩
  · rintro ⟨b, rt, c, hnb, hc, hx⟩
    exact ⟨(b, rt), hnb, moveFun_eq_some.mpr ⟨c, hc, hx⟩⟩

theorem expand_covers_step {ctx : SearchCtx} {s0 t0 : Nat} {e : Entry}
    {nbrs : List (Nat × Int)} {moves : List Entry}
    (hwfg : WFGraph ctx.graph)
    (hok : EntryOK ctx s0 t0 e)
    (hnbrs : ctx.graph.get_neighbors (e.nd : Int) ctx.vehicle_type =
      some nbrs)
    (hmeq : moves = nbrs.filterMap (moveFun ctx e.g e.tm e.path))
    {b : Nat} {c : ℚ}
    (hstep : stepCost ctx.graph ctx.cost_calc ctx.vehicle_type
      e.tm e.nd b = some c) :
    ∃ x ∈ Entry.mk e.g e.g e.nd (e.tm + 1) (e.path ++ [e.nd]) :: moves,
      x.nd = b ∧ x.tm = e.tm + 1 ∧ x.g ≤ e.g + c := by
  by_cases hab : e.nd = b
  · refine ⟨Entry.mk e.g e.g e.nd (e.tm + 1) (e.path ++ [e.nd]),
      List.mem_cons_self _ _, hab, rfl, ?_⟩
    have hc0 : c = 0 := by
      rw [← hab] at hstep
      exact stepCost_wait_inv hstep
    rw [hc0, add_zero]
  · rcases stepCost_move hab hstep with ⟨rt, hroad, hcost⟩
    have hvalid := get_cost_some_valid hcost
    have hblt := (get_road_type_lt hwfg hroad).2
    have hmem : (b, rt) ∈ nbrs :=
      (mem_get_neighbors hwfg (hok.2.2.2.2.2.1) hnbrs).mpr
        ⟨hblt, hroad, hvalid.1, hvalid.2⟩
    refine ⟨Entry.mk (e.g + c) (e.g + c) b (e.tm + 1) (e.path ++ [b]),
      List.mem_cons_of_mem _ ?_, rfl, rfl, le_refl _⟩
    exact (moves_mem_iff hmeq).mpr ⟨b, rt, c, hmem, hcost, rfl⟩

theorem inv_expand (ctx : SearchCtx) (s0 t0 : Nat) {pq rest : List Entry}
    {visited : Nat × Nat → Option ℚ} {e : Entry} {nbrs : List (Nat × Int)}
    {moves : List Entry}
    (hwfg : WFGraph ctx.graph) (hwfc : WFCost ctx.cost_calc ctx.T)
    (hpop : popMin pq = some (e, rest))
    (hinv : SearchInv ctx s0 t0 pq visited)
    (hnret : ¬ (e.nd = ctx.target_node ∧ e.tm ≤ ctx.deadline))
    (hndis : ¬ (ctx.T ≤ e.tm ∨ ctx.deadline < e.tm))
    (hnvle : visitedLE visited (e.nd, e.tm) e.g = false)
    (hnbrs : ctx.graph.get_neighbors (e.nd : Int) ctx.vehicle_type =
      some nbrs)
    (hmeq : moves = nbrs.filterMap (moveFun ctx e.g e.tm e.path)) :
    SearchInv ctx s0 t0
      (rest ++ Entry.mk e.g e.g e.nd (e.tm + 1) (e.path ++ [e.nd]) :: moves)
      (fun s => if s = (e.nd, e.tm) then some e.g else visited s) := by
  have hok := hinv.entries e (popMin_mem hpop)
  have htm : e.tm < ctx.T := by
    rcases not_or.mp hndis with ⟨h1, _⟩
    omega
  have htmdl : e.tm ≤ ctx.deadline := by
    rcases not_or.mp hndis with ⟨_, h2⟩
    omega
  have hndtgt : ¬ (e.nd = ctx.target_node) := fun h => hnret ⟨h, htmdl⟩
  constructor
  · intro x hx
    rcases List.mem_append.mp hx with hx | hx
    · exact hinv.entries x (rest_subset_of_popMin hpop hx)
    · rcases List.mem_cons.mp hx with rfl | hx
      · exact entryOK_wait hok htm
      · rcases (moves_mem_iff hmeq).mp hx with ⟨b, rt, c, hnb, hc, rfl⟩
        have hmem := (mem_get_neighbors hwfg hok.2.2.2.2.2.1 hnbrs).mp hnb
        exact entryOK_move hwfg hwfc hok htm hmem.1 hmem.2.1 hc
  · intro q hq
    obtain ⟨hhead, hlast, hcost, hdl, hT⟩ := Rq_elim hq
    rcases hinv.reach q hq with ⟨k, hA | hV⟩
    · obtain ⟨hk, e', he', hend, hetm, c, hc, hcle⟩ := hA
      rcases mem_of_popMin hpop he' with heq | hmem
      · rw [heq] at hend hetm hcle
        have hkne : ¬ (k = q.length - 1) := by
          intro hke
          apply hndtgt
          rw [hend, hke]
          exact getLast?_getD hlast
        have hlen1 : 1 ≤ q.length := Rq_length_pos hq
        have hk1 : k + 1 < q.length := by omega
        obtain ⟨cq, hcq⟩ := Option.ne_none_iff_exists'.mp hcost
        obtain ⟨ck, hck⟩ := schedCost_step ctx.graph ctx.cost_calc
          ctx.vehicle_type q t0 cq hcq k hk1
        have hck2 : stepCost ctx.graph ctx.cost_calc ctx.vehicle_type
            e.tm e.nd (q.getD (k + 1) 0) = some ck := by
          rw [hend, hetm]
          exact hck
        obtain ⟨x, hxmem, hxnd, hxtm, hxg⟩ :=
          expand_covers_step hwfg hok hnbrs hmeq hck2
        have hc1 := schedCost_take_succ ctx.graph ctx.cost_calc
          ctx.vehicle_type hk1 hc hck
        refine ⟨k + 1, Or.inl ⟨hk1, x,
          List.mem_append.mpr (Or.inr hxmem), hxnd, by omega,
          c + ck, hc1, by linarith⟩⟩
      · exact ⟨k, Or.inl ⟨hk, e', List.mem_append.mpr (Or.inl hmem),
          hend, hetm, c, hc, hcle⟩⟩
    · obtain ⟨hk, v, hv, c, hc, hvle2⟩ := hV
      by_cases hkey : ((q.getD k 0, t0 + k) : Nat × Nat) = (e.nd, e.tm)
      · have hlt : e.g < v := by
          apply visitedLE_false hnvle
          rw [← hkey]
          exact hv
        refine ⟨k, Or.inr ⟨hk, e.g, ?_, c, hc, by linarith⟩⟩
        simp only [hkey, if_pos]
      · refine ⟨k, Or.inr ⟨hk, v, ?_, c, hc, hvle2⟩⟩
        simp only [hkey, if_neg, if_false]
        exact hv
  · intro a t v hv b c hstep halive
    by_cases hkey : ((a, t) : Nat × Nat) = (e.nd, e.tm)
    · rw [Prod.mk.injEq] at hkey
      obtain ⟨rfl, rfl⟩ := hkey
      have hveq : v = e.g := by
        simp only [if_pos rfl] at hv
        exact (Option.some.injEq _ _ ▸ hv).symm
      subst hveq
      obtain ⟨x, hxmem, hxnd, hxtm, hxg⟩ :=
        expand_covers_step hwfg hok hnbrs hmeq hstep
      exact Or.inl ⟨x, List.mem_append.mpr (Or.inr hxmem), hxnd, hxtm, hxg⟩
    · have hvold : visited (a, t) = some v := by
        simp only [if_neg hkey] at hv
        exact hv
      rcases hinv.vis_succ a t v hvold b c hstep halive with
        ⟨e', he', hend, hetm, heg⟩ | ⟨v', hv', hv'le⟩
      · rcases mem_of_popMin hpop he' with heq | hmem
        · rw [heq] at hend hetm heg
          have hbt : ((b, t + 1) : Nat × Nat) = (e.nd, e.tm) := by
            rw [← hend, ← hetm]
          refine Or.inr ⟨e.g, ?_, heg⟩
          show (if ((b, t + 1) : Nat × Nat) = (e.nd, e.tm) then some e.g
            else visited (b, t + 1)) = some e.g
          rw [if_pos hbt]
        · exact Or.inl ⟨e', List.mem_append.mpr (Or.inl hmem),
            hend, hetm, heg⟩
      · by_cases hkey2 : ((b, t + 1) : Nat × Nat) = (e.nd, e.tm)
        · have hlt : e.g < v' := by
            apply visitedLE_false hnvle
            rw [← hkey2]
            exact hv'
          refine Or.inr ⟨e.g, ?_, by linarith⟩
          simp only [hkey2, if_pos]
        · refine Or.inr ⟨v', ?_, hv'le⟩
          simp only [if_neg hkey2]
          exact hv'
  · intro a t v hv
    by_cases hkey : ((a, t) : Nat × Nat) = (e.nd, e.tm)
    · rw [Prod.mk.injEq] at hkey
      obtain ⟨rfl, rfl⟩ := hkey
      exact ⟨htm, htmdl, hndtgt⟩
    · have hvold : visited (a, t) = some v := by
        simp only [if_neg hkey] at hv
        exact hv
      exact hinv.vis_dom a t v hvold

theorem pqMeasure_expand {ctx : SearchCtx} {pq rest : List Entry}
    {e : Entry} {nbrs : List (Nat × Int)} {moves : List Entry}
    (hwfg : WFGraph ctx.graph)
    (hpop : popMin pq = some (e, rest))
    (hnd : e.nd < ctx.graph.num_nodes)
    (htm : e.tm < ctx.T)
    (hnbrs : ctx.graph.get_neighbors (e.nd : Int) ctx.vehicle_type =
      some nbrs)
    (hmeq : moves = nbrs.filterMap (moveFun ctx e.g e.tm e.path)) :
    pqMeasure ctx.graph.num_nodes ctx.T
        (rest ++ Entry.mk e.g e.g e.nd (e.tm + 1) (e.path ++ [e.nd]) :: moves)
      < pqMeasure ctx.graph.num_nodes ctx.T pq := by
  set N := ctx.graph.num_nodes with hN
  set T := ctx.T with hT
  have hw : ∀ x ∈ Entry.mk e.g e.g e.nd (e.tm + 1) (e.path ++ [e.nd]) :: moves,
      entryWeight N T x = (N + 2) ^ (T - e.tm) := by
    intro x hx
    rcases List.mem_cons.mp hx with rfl | hx
    · show (N + 2) ^ (T + 1 - (e.tm + 1)) = (N + 2) ^ (T - e.tm)
      congr 1
      omega
    · rcases (moves_mem_iff hmeq).mp hx with ⟨b, rt, c, _, _, rfl⟩
      show (N + 2) ^ (T + 1 - (e.tm + 1)) = (N + 2) ^ (T - e.tm)
      congr 1
      omega
  have hlen : moves.length ≤ N := by
    rw [hmeq]
    calc (nbrs.filterMap (moveFun ctx e.g e.tm e.path)).length
        ≤ nbrs.length := List.length_filterMap_le _ _
      _ ≤ N := get_neighbors_length hwfg hnd hnbrs
  have hnew : pqMeasure N T
      (rest ++ Entry.mk e.g e.g e.nd (e.tm + 1) (e.path ++ [e.nd]) :: moves) =
      pqMeasure N T rest + (moves.length + 1) * (N + 2) ^ (T - e.tm) := by
    rw [pqMeasure_append, pqMeasure_const hw]
    simp [List.length_cons]
  have hold : pqMeasure N T pq =
      entryWeight N T e + pqMeasure N T rest := by
    rw [pqMeasure_perm (popMin_perm hpop), pqMeasure_cons]
  have hwe : entryWeight N T e = (N + 2) * (N + 2) ^ (T - e.tm) := by
    show (N + 2) ^ (T + 1 - e.tm) = (N + 2) * (N + 2) ^ (T - e.tm)
    have h1 : T + 1 - e.tm = (T - e.tm) + 1 := by omega
    rw [h1, pow_succ]
    ring
  have hwpos : 1 ≤ (N + 2) ^ (T - e.tm) := Nat.one_le_pow _ _ (by omega)
  rw [hnew, hold, hwe]
  have hmul : (moves.length + 1) * (N + 2) ^ (T - e.tm) <
      (N + 2) * (N + 2) ^ (T - e.tm) := by
    apply Nat.mul_lt_mul_of_lt_of_le (by omega) (le_refl _)
    omega
  omega

theorem searchLoop_succ_none (ctx : SearchCtx) (fuel : Nat)
    (pq : List Entry) (visited : Nat × Nat → Option ℚ)
    (hpop : popMin pq = none) :
    searchLoop ctx (fuel + 1) pq visited = Except.ok none := by
  rw [searchLoop, hpop]

theorem searchLoop_succ_some (ctx : SearchCtx) (fuel : Nat)
    (pq : List Entry) (visited : Nat × Nat → Option ℚ) (e : Entry)
    (rest : List Entry) (hpop : popMin pq = some (e, rest)) :
    searchLoop ctx (fuel + 1) pq visited =
      if e.nd = ctx.target_node ∧ e.tm ≤ ctx.deadline then
        Except.ok (some (e.path, e.g, e.tm))
      else if ctx.T ≤ e.tm ∨ ctx.deadline < e.tm then
        searchLoop ctx fuel rest visited
      else if visitedLE visited (e.nd, e.tm) e.g then
        searchLoop ctx fuel rest visited
      else
        match ctx.graph.get_neighbors (e.nd : Int) ctx.vehicle_type with
        | none => Except.error ()
        | some nbrs =>
          match expandMoves ctx e.g e.tm e.path nbrs with
          | none => Except.error ()
          | some moves =>
            searchLoop ctx fuel
              (rest ++
                Entry.mk e.g e.g e.nd (e.tm + 1) (e.path ++ [e.nd]) :: moves)
              (fun s => if s = (e.nd, e.tm) then some e.g else visited s) := by
  rw [searchLoop, hpop]

/-- What the search loop guarantees: it never raises, it answers
"no path" only when no feasible schedule exists, and a returned triple
is a feasible schedule whose reported cost dominates its own schedule
cost and is a lower bound on the cost of every feasible schedule. -/
def SearchOutcome (ctx : SearchCtx) (s0 t0 : Nat)
    (res : Except Unit (Option (List Nat × ℚ × Nat))) : Prop :=
  match res with
  | Except.error _ => False
  | Except.ok none => ∀ q, ¬ Rq ctx s0 t0 q
  | Except.ok (some (p, c, a)) =>
      p.head? = some s0 ∧ p.getLast? = some ctx.target_node ∧
      a = t0 + (p.length - 1) ∧ a ≤ ctx.deadline ∧ a ≤ ctx.T ∧
      (∃ c', schedCost ctx.graph ctx.cost_calc ctx.vehicle_type t0 p =
        some c' ∧ c' ≤ c) ∧
      (∀ q cq, Rq ctx s0 t0 q →
        schedCost ctx.graph ctx.cost_calc ctx.vehicle_type t0 q = some cq →
        c ≤ cq)

theorem searchLoop_correct (ctx : SearchCtx) (s0 t0 : Nat)
    (hwfg : WFGraph ctx.graph) (hwfc : WFCost ctx.cost_calc ctx.T) :
    ∀ (fuel : Nat) (pq : List Entry) (visited : Nat × Nat → Option ℚ),
      pqMeasure ctx.graph.num_nodes ctx.T pq < fuel →
      SearchInv ctx s0 t0 pq visited →
      SearchOutcome ctx s0 t0 (searchLoop ctx fuel pq visited) := by
  intro fuel
  induction fuel with
  | zero =>
    intro pq visited hm _
    omega
  | succ fuel ih =>
    intro pq visited hm hinv
    show SearchOutcome ctx s0 t0 (searchLoop ctx (fuel + 1) pq visited)
    cases hpop : popMin pq with
    | none =>
      rw [searchLoop_succ_none ctx fuel pq visited hpop]
      intro q hq
      have hempty : pq = [] := popMin_eq_none hpop
      rcases hinv.reach q hq with ⟨k, hw⟩
      rcases chain_to_frontier hinv.vis_succ hinv.vis_dom hq q.length k
        (by omega) hw with ⟨k', hA⟩
      obtain ⟨_, e', he', _⟩ := hA
      rw [hempty] at he'
      simp at he'
    | some pr =>
      obtain ⟨e, rest⟩ := pr
      rw [searchLoop_succ_some ctx fuel pq visited e rest hpop]
      have hok := hinv.entries e (popMin_mem hpop)
      have hmeasure : pqMeasure ctx.graph.num_nodes ctx.T pq =
          entryWeight ctx.graph.num_nodes ctx.T e +
          pqMeasure ctx.graph.num_nodes ctx.T rest := by
        rw [pqMeasure_perm (popMin_perm hpop), pqMeasure_cons]
      have hwpos := entryWeight_pos ctx.graph.num_nodes ctx.T e
      by_cases hret : e.nd = ctx.target_node ∧ e.tm ≤ ctx.deadline
      · rw [if_pos hret]
        show (e.path.head? = some s0 ∧
          e.path.getLast? = some ctx.target_node ∧
          e.tm = t0 + (e.path.length - 1) ∧ e.tm ≤ ctx.deadline ∧
          e.tm ≤ ctx.T ∧
          (∃ c', schedCost ctx.graph ctx.cost_calc ctx.vehicle_type t0
            e.path = some c' ∧ c' ≤ e.g) ∧
          (∀ q cq, Rq ctx s0 t0 q →
            schedCost ctx.graph ctx.cost_calc ctx.vehicle_type t0 q =
              some cq → e.g ≤ cq))
        obtain ⟨hf, hne, hhead, hlast, htmeq, hnd, hT, c, hc, hcle⟩ := hok
        refine ⟨hhead, by rw [hlast, hret.1], htmeq, hret.2, hT,
          ⟨c, hc, hcle⟩, ?_⟩
        intro q cq hq hcq
        rcases hinv.reach q hq with ⟨k, hw⟩
        rcases chain_to_frontier hinv.vis_succ hinv.vis_dom hq q.length k
          (by omega) hw with ⟨k', hA⟩
        obtain ⟨hk', e', he', _, _, c', hc', hcle'⟩ := hA
        have hff : e.f ≤ e'.f := popMin_f_le hpop e' he'
        have hf' : e'.f = e'.g := (hinv.entries e' he').1
        have hprefix : c' ≤ cq :=
          schedCost_take_le hwfg hwfc q t0 (k' + 1) cq c' hcq hc'
        calc e.g = e.f := hf.symm
          _ ≤ e'.f := hff
          _ = e'.g := hf'
          _ ≤ c' := hcle'
          _ ≤ cq := hprefix
      · rw [if_neg hret]
        by_cases hdis : ctx.T ≤ e.tm ∨ ctx.deadline < e.tm
        · rw [if_pos hdis]
          exact ih rest visited (by omega)
            (inv_discard ctx s0 t0 hpop hinv hret hdis)
        · rw [if_neg hdis]
          by_cases hvle : visitedLE visited (e.nd, e.tm) e.g = true
          · rw [if_pos hvle]
            exact ih rest visited (by omega)
              (inv_prune ctx s0 t0 hpop hinv hvle)
          · rw [if_neg hvle]
            have hvle2 : visitedLE visited (e.nd, e.tm) e.g = false := by
              simpa using hvle
            have htm : e.tm < ctx.T := by
              rcases not_or.mp hdis with ⟨h1, _⟩
              omega
            have hnd := hok.2.2.2.2.2.1
            have hnbrs := get_neighbors_eq ctx.vehicle_type hwfg hnd
            have hall : ∀ nb ∈ (List.range ctx.graph.num_nodes).filterMap
                (nbrFun ctx.graph ctx.vehicle_type e.nd),
                (ctx.cost_calc.get_cost nb.2 e.tm
                  ctx.vehicle_type).isSome = true := by
              intro nb hnb
              obtain ⟨b, rt⟩ := nb
              have hmem := (mem_get_neighbors hwfg hnd hnbrs).mp hnb
              exact get_cost_isSome hwfc htm
                (get_road_type_mem_range hwfg hmem.2.1) ctx.vehicle_type
            have hexp := expandMoves_eq ctx e.g e.tm e.path
              ((List.range ctx.graph.num_nodes).filterMap
                (nbrFun ctx.graph ctx.vehicle_type e.nd)) hall
            rw [hnbrs]
            show SearchOutcome ctx s0 t0
              (match expandMoves ctx e.g e.tm e.path
                  ((List.range ctx.graph.num_nodes).filterMap
                    (nbrFun ctx.graph ctx.vehicle_type e.nd)) with
               | none => Except.error ()
               | some moves =>
                 searchLoop ctx fuel
                   (rest ++
                     Entry.mk e.g e.g e.nd (e.tm + 1)
                       (e.path ++ [e.nd]) :: moves)
                   (fun s => if s = (e.nd, e.tm) then some e.g
                     else visited s))
            rw [hexp]
            show SearchOutcome ctx s0 t0
              (searchLoop ctx fuel
                (rest ++
                  Entry.mk e.g e.g e.nd (e.tm + 1) (e.path ++ [e.nd]) ::
                    ((List.range ctx.graph.num_nodes).filterMap
                      (nbrFun ctx.graph ctx.vehicle_type e.nd)).filterMap
                      (moveFun ctx e.g e.tm e.path))
                (fun s => if s = (e.nd, e.tm) then some e.g else visited s))
            apply ih
            · have hdec := pqMeasure_expand hwfg hpop hnd htm hnbrs rfl
              omega
            · exact inv_expand ctx s0 t0 hwfg hwfc hpop hinv hret hdis
                hvle2 hnbrs rfl

theorem initial_inv (ctx : SearchCtx) (s0 t0 : Nat)
    (hs0 : s0 < ctx.graph.num_nodes) (ht0 : t0 ≤ ctx.T) :
    SearchInv ctx s0 t0 [Entry.mk 0 0 s0 t0 [s0]] (fun _ => none) := by
  constructor
  · intro x hx
    rcases List.mem_singleton.mp hx with rfl
    refine ⟨rfl, by simp, rfl, ?_, ?_, hs0, ht0, 0, rfl, le_refl 0⟩
    · exact List.getLast?_singleton s0
    · rfl
  · intro q hq
    obtain ⟨hhead, _, _, _, _⟩ := Rq_elim hq
    refine ⟨0, Or.inl ⟨Rq_length_pos hq, Entry.mk 0 0 s0 t0 [s0],
      List.mem_singleton.mpr rfl, ?_, rfl, 0, ?_, le_refl 0⟩⟩
    · show s0 = q.getD 0 0
      rw [head?_getD hhead]
    · exact schedCost_take_one t0 hhead
  · intro a t v hv
    simp at hv
  · intro a t v hv
    simp at hv

/-- claim C1 (amended with the horizon bound): whenever some legal
wait/move sequence within the horizon reaches the target by the
deadline, `_find_path` returns a path, its exact total cost, and its
arrival time, and that cost is minimal among all such sequences. -/
theorem find_path_optimal (gr : Graph) (cc : CostCalculator)
    (vt : VehicleType) (s0 t0 target deadline T : Nat)
    (hwfg : WFGraph gr) (hwfc : WFCost cc T)
    (hs0 : s0 < gr.num_nodes)
    (hreach : ∃ q, ReachesByH gr cc vt s0 t0 target deadline T q) :
    ∃ p c a, find_path gr cc s0 t0 target vt deadline T =
        Except.ok (some (p, c, a)) ∧
      ReachesByH gr cc vt s0 t0 target deadline T p ∧
      schedCost gr cc vt t0 p = some c ∧
      a = t0 + (p.length - 1) ∧ a ≤ deadline ∧ a ≤ T ∧
      (∀ q cq, ReachesByH gr cc vt s0 t0 target deadline T q →
        schedCost gr cc vt t0 q = some cq → c ≤ cq) := by
  obtain ⟨q0, hq0⟩ := hreach
  have ht0 : t0 ≤ T := by
    have := hq0.2
    omega
  have hinv := initial_inv (SearchCtx.mk gr cc target vt deadline T) s0 t0
    hs0 ht0
  have hmeas : pqMeasure gr.num_nodes T [Entry.mk 0 0 s0 t0 [s0]] <
      searchFuel gr.num_nodes T t0 := by
    show pqMeasure gr.num_nodes T [Entry.mk 0 0 s0 t0 [s0]] <
      (gr.num_nodes + 2) ^ (T + 1 - t0) + 1
    have : pqMeasure gr.num_nodes T [Entry.mk 0 0 s0 t0 [s0]] =
        (gr.num_nodes + 2) ^ (T + 1 - t0) := by
      rw [pqMeasure_cons]
      show entryWeight gr.num_nodes T (Entry.mk 0 0 s0 t0 [s0]) +
        pqMeasure gr.num_nodes T [] = _
      simp [pqMeasure, entryWeight]
    omega
  have houtcome := searchLoop_correct (SearchCtx.mk gr cc target vt deadline T)
    s0 t0 hwfg hwfc (searchFuel gr.num_nodes T t0)
    [Entry.mk 0 0 s0 t0 [s0]] (fun _ => none) hmeas hinv
  have heq : find_path gr cc s0 t0 target vt deadline T =
      searchLoop (SearchCtx.mk gr cc target vt deadline T)
        (searchFuel gr.num_nodes T t0) [Entry.mk 0 0 s0 t0 [s0]]
        (fun _ => none) := rfl
  rw [← heq] at houtcome
  cases hres : find_path gr cc s0 t0 target vt deadline T with
  | error u =>
    rw [hres] at houtcome
    exact absurd houtcome (fun h => h)
  | ok res =>
    cases res with
    | none =>
      rw [hres] at houtcome
      exact absurd hq0 (houtcome q0)
    | some tri =>
      obtain ⟨p, c, a⟩ := tri
      rw [hres] at houtcome
      dsimp only [SearchOutcome] at houtcome
      obtain ⟨hhead, hlast, harr, hdl, hT, ⟨c', hc', hc'le⟩, hmin⟩ :=
        houtcome
      have hpfeas : ReachesByH gr cc vt s0 t0 target deadline T p := by
        refine ⟨⟨hhead, hlast, ?_, ?_⟩, ?_⟩
        · rw [hc']
          exact Option.some_ne_none c'
        · omega
        · omega
      have hcexact : c' = c := by
        have h1 := hmin p c' hpfeas hc'
        linarith
      refine ⟨p, c, a, rfl, hpfeas, ?_, harr, hdl, hT, hmin⟩
      rw [hc', hcexact]

theorem find_path_optimal_witness :
    (WFGraph grCex ∧ WFCost ccCex 2 ∧ 0 < grCex.num_nodes ∧
      ReachesByH grCex ccCex VehicleType.truck 0 0 1 5 2 [0, 2, 1]) ∧
    (∃ p c a, find_path grCex ccCex 0 0 1 VehicleType.truck 5 2 =
        Except.ok (some (p, c, a)) ∧
      ReachesByH grCex ccCex VehicleType.truck 0 0 1 5 2 p ∧
      schedCost grCex ccCex VehicleType.truck 0 p = some c ∧
      a = 0 + (p.length - 1) ∧ a ≤ 5 ∧ a ≤ 2 ∧
      (∀ q cq, ReachesByH grCex ccCex VehicleType.truck 0 0 1 5 2 q →
        schedCost grCex ccCex VehicleType.truck 0 q = some cq → c ≤ cq)) := by
  have hwfg : WFGraph grCex := by
    unfold WFGraph Graph.num_nodes grCex
    decide
  have hwfc : WFCost ccCex 2 := by
    refine ⟨?_, by decide, by decide, by decide, by decide⟩
    intro r h1 h5
    constructor
    · show (2 : Nat) ≤ ([1, 1] : List ℚ).length
      decide
    · show ∀ w ∈ ([1, 1] : List ℚ), 0 ≤ w
      decide
  have hreach : ReachesByH grCex ccCex VehicleType.truck 0 0 1 5 2
      [0, 2, 1] := by
    refine ⟨⟨rfl, rfl, ?_, by decide⟩, by decide⟩
    decide
  exact ⟨⟨hwfg, hwfc, by decide, hreach⟩,
    find_path_optimal grCex ccCex VehicleType.truck 0 0 1 5 2 hwfg hwfc
      (by decide) ⟨[0, 2, 1], hreach⟩⟩

/-- A vehicle state dict from `Planner._init_vehicles`. -/
structure Vehicle : Type where
  id : String
  vtype : VehicleType
  current_node : Nat
  current_time : Nat
  path : List Nat
  total_cost : ℚ
  total_points : ℚ
  objectives : List Objective
deriving DecidableEq, Repr

/-- The `Planner` constructor arguments. -/
structure Planner : Type where
  graph : Graph
  cost_calc : CostCalculator
  start_node : Nat
  objectives : List Objective
  late_penalty : ℚ
  T : Nat

/-- `self.num_trucks = 3`. -/
def Planner.num_trucks (_ : Planner) : Nat := 3

/-- `self.num_drones = 2`. -/
def Planner.num_drones (_ : Planner) : Nat := 2

/-- `Planner._init_vehicles`: 3 trucks then 2 drones, ids `truck1..3`,
`drone1..2`, all at the start node at time 0. -/
def Planner.init_vehicles (P : Planner) : List Vehicle :=
  ((List.range P.num_trucks).map fun i =>
    Vehicle.mk ("truck" ++ toString (i + 1)) VehicleType.truck
      P.start_node 0 [P.start_node] 0 0 []) ++
  ((List.range P.num_drones).map fun i =>
    Vehicle.mk ("drone" ++ toString (i + 1)) VehicleType.drone
      P.start_node 0 [P.start_node] 0 0 [])

/-- Candidate data tracked by the best-vehicle scan of
`Planner._assign_objective`. -/
structure BestData : Type where
  idx : Nat
  veh : Vehicle
  path : List Nat
  cost : ℚ
  arrival : Nat
  points : ℚ
  benefit : ℚ
deriving DecidableEq, Repr

/-- One candidate evaluation in `Planner._assign_objective`: skip the
vehicle if its time is past the deadline or no path exists; otherwise
wait-extend the path to the release, score it, and report the benefit. -/
def Planner.evalVehicle (P : Planner) (obj : Objective) (v : Vehicle) :
    Except Unit (Option (List Nat × ℚ × Nat × ℚ × ℚ)) :=
  if v.current_time > obj.deadline then Except.ok none
  else
    match find_path P.graph P.cost_calc v.current_node v.current_time
        obj.node v.vtype obj.deadline P.T with
    | Except.error u => Except.error u
    | Except.ok none => Except.ok none
    | Except.ok (some (path, cost, arrival)) =>
      let path2 := if arrival < obj.release then
          path ++ List.replicate (obj.release - arrival) obj.node
        else path
      let arrival2 := if arrival < obj.release then obj.release else arrival
      let points := calculate_score P.late_penalty arrival2 obj
      Except.ok (some (path2, cost, arrival2, points, points - cost))

/-- The `for vehicle in self.vehicles` scan of `_assign_objective`:
keep the candidate with the strictly greatest positive benefit
(earlier vehicles win ties). -/
def Planner.pickBest (P : Planner) (obj : Objective) :
    List Vehicle → Nat → Option BestData →
      Except Unit (Option BestData)
  | [], _, best => Except.ok best
  | v :: rest, i, best =>
    match P.evalVehicle obj v with
    | Except.error u => Except.error u
    | Except.ok none => P.pickBest obj rest (i + 1) best
    | Except.ok (some (path, cost, arrival, points, benefit)) =>
      let better : Bool :=
        match best with
        | none => decide (benefit > 0)
        | some b => decide (benefit > b.benefit ∧ benefit > 0)
      if better then
        P.pickBest obj rest (i + 1)
          (some (BestData.mk i v path cost arrival points benefit))
      else
        P.pickBest obj rest (i + 1) best

/-- The commit loop of `_assign_objective`: walk `path[1:]`, appending
each node; a node equal to the current node is a free wait, a move
re-queries the road type and edge cost at the current time and adds
`edge_cost if edge_cost else 0` to the total cost. -/
def Planner.applyPath (P : Planner) : Vehicle → List Nat →
    Except Unit Vehicle
  | v, [] => Except.ok v
  | v, node :: rest =>
    if node = v.current_node then
      P.applyPath
        { v with path := v.path ++ [node],
                 current_time := v.current_time + 1 } rest
    else
      match P.graph.get_road_type (v.current_node : Int) (node : Int) with
      | none => Except.error ()
      | some road_type =>
        match P.cost_calc.get_cost road_type v.current_time v.vtype with
        | none => Except.error ()
        | some edge_cost =>
          P.applyPath
            { v with path := v.path ++ [node],
                     current_node := node,
                     current_time := v.current_time + 1,
                     total_cost := v.total_cost +
                       (match edge_cost with
                        | some c => if c = 0 then 0 else c
                        | none => 0) } rest

/-- `Planner._assign_objective`: evaluate all vehicles, and commit the
winning candidate (if any) by replaying its path and crediting points
and the objective. -/
def Planner.assign_objective (P : Planner) (vehicles : List Vehicle)
    (obj : Objective) : Except Unit (List Vehicle) :=
  match P.pickBest obj vehicles 0 none with
  | Except.error u => Except.error u
  | Except.ok none => Except.ok vehicles
  | Except.ok (some b) =>
    match P.applyPath b.veh (b.path.drop 1) with
    | Except.error u => Except.error u
    | Except.ok v' =>
      Except.ok (vehicles.set b.idx
        { v' with total_points := v'.total_points + b.points,
                  objectives := v'.objectives ++ [obj] })

/-- The greedy loop of `Planner.solve`: assign each objective in
priority order. -/
def Planner.assignAll (P : Planner) : List Vehicle → List Objective →
    Except Unit (List Vehicle)
  | vs, [] => Except.ok vs
  | vs, obj :: rest =>
    match P.assign_objective vs obj with
    | Except.error u => Except.error u
    | Except.ok vs2 => P.assignAll vs2 rest

/-- `while len(vehicle['path']) < self.T: vehicle['path'].append(...)`. -/
def padPath (T : Nat) (v : Vehicle) : Vehicle :=
  { v with path := v.path ++ List.replicate (T - v.path.length) v.current_node }

/-- `Planner.solve`: prioritize, greedily assign, pad every path to the
horizon, and emit the `{vehicle_id: path}` solution (pairs in fleet
order, like Python dict insertion order).  The final vehicle states are
returned alongside the solution. -/
def Planner.solve (P : Planner) :
    Except Unit (List Vehicle × List (String × List Nat)) :=
  match P.assignAll P.init_vehicles (prioritize_objectives P.objectives) with
  | Except.error u => Except.error u
  | Except.ok vehicles =>
    let vehicles2 := vehicles.map (padPath P.T)
    Except.ok (vehicles2, vehicles2.map fun v => (v.id, v.path))

/-- Concrete instance for the horizon-edge counterexamples: two nodes,
one ground road `0 → 1`, horizon `T = 2`, and one objective at node 1
with `deadline = 2 = T` (expensive to move at time 0, cheap at time 1). -/
def grC4 : Graph := Graph.mk [[-1, 1], [-1, -1]]

def ccC4 : CostCalculator where
  road_weights := fun _ => [100, 1]
  earth_shock := [0, 0]
  rainfall := [0, 0]
  wind := [0, 0]
  visibility := [0, 0]

def pC4 : Planner :=
  Planner.mk grC4 ccC4 0 [Objective.mk 1 0 2 50] 1 2

/-- claim C4 counterexample: with an objective whose deadline equals the
horizon `T`, the committed path arrives at time `T` and the padded
solution maps `truck1` to a path of length `T + 1 = 3 ≠ T = 2`. -/
theorem solve_path_length_exceeds_horizon :
    (match pC4.solve with
     | Except.ok (_, sol) => (sol.lookup ("truck1")).map List.length
     | _ => none) = some 3 ∧ pC4.T = 2 := by
  constructor
  · decide
  · rfl

/-- Concrete instance for the padding counterexample: one node, no
objectives, horizon `T = 3`. -/
def pC5 : Planner :=
  Planner.mk (Graph.mk [[-1]])
    (CostCalculator.mk (fun _ => [0, 0, 0]) [0, 0, 0] [0, 0, 0] [0, 0, 0]
      [0, 0, 0])
    0 [] 1 3

/-- claim C5 counterexample: after the final padding phase the invariant
`current_time == len(path) - 1` fails — padding extends the path without
advancing `current_time`, so `truck1` ends with `current_time = 0` but
`len(path) - 1 = 2`. -/
theorem padding_breaks_time_length_invariant :
    (match pC5.solve with
     | Except.ok (vehicles, _) =>
       (vehicles.head?).map fun v => (v.current_time, v.path.length)
     | _ => none) = some (0, 3) := by
  decide

/-- claim C9 counterexample: the index `-1` is outside `[0, N)` for the
2-node network, yet `get_road_type` and `is_valid_edge` silently return
a result (Python negative indexing wraps to the last row) instead of
failing. -/
theorem negative_index_wraps_silently :
    (Graph.mk [[-1, 0], [1, -1]]).get_road_type (-1) 0 = some 1 ∧
    (Graph.mk [[-1, 0], [1, -1]]).is_valid_edge (-1) 0 VehicleType.truck =
      some true := by
  decide

theorem pyGet_none_of_oob {α : Type} {l : List α} {i : Int}
    (h : (l.length : Int) ≤ i ∨ i < -(l.length : Int)) :
    pyGet l i = none := by
  unfold pyGet
  rcases h with h | h
  · have h0 : 0 ≤ i := by
      have : (0 : Int) ≤ (l.length : Int) := by positivity
      omega
    rw [if_pos h0]
    apply List.get?_eq_none.mpr
    omega
  · have h0 : ¬ (0 ≤ i) := by omega
    rw [if_neg h0]
    have h1 : ¬ (0 ≤ (l.length : Int) + i) := by omega
    simp only [h1, if_false]

theorem pyGet_neg_wrap {α : Type} {l : List α} {i : Int}
    (h1 : -(l.length : Int) ≤ i) (h2 : i < 0) :
    pyGet l i = pyGet l (i + l.length) := by
  unfold pyGet
  have ha : ¬ (0 ≤ i) := by omega
  have hb : 0 ≤ (l.length : Int) + i := by omega
  have hc : 0 ≤ i + (l.length : Int) := by omega
  rw [if_neg ha, if_pos hb, if_pos hc]
  have : (l.length : Int) + i = i + (l.length : Int) := by ring
  rw [this]

theorem foldl_bind_none {α β : Type} (g : β → List α → Option (List α))
    (l : List β) :
    l.foldl (fun acc x => acc.bind (g x)) none = none := by
  induction l with
  | nil => rfl
  | cons x xs ih =>
    rw [List.foldl_cons, Option.none_bind]
    exact ih

theorem get_neighbors_none_of_oob {g : Graph} {node : Int}
    (vt : VehicleType) (hN : 1 ≤ g.num_nodes)
    (hoob : (g.num_nodes : Int) ≤ node ∨ node < -(g.num_nodes : Int)) :
    g.get_neighbors node vt = none := by
  have hrow : pyGet g.adjacency_matrix node = none := pyGet_none_of_oob hoob
  unfold Graph.get_neighbors
  obtain ⟨m, hm⟩ : ∃ m, g.num_nodes = m + 1 := ⟨g.num_nodes - 1, by omega⟩
  rw [hm, List.range_succ_eq_map, List.foldl_cons]
  have hfirst :
      (some ([] : List (Nat × Int))).bind
        (fun neighbors =>
          (g.get_road_type node ((0 : Nat) : Int)).map fun road_type =>
            if road_type = -1 then neighbors
            else if vt = VehicleType.truck ∧ road_type = 0 then neighbors
            else neighbors ++ [((0, road_type) : Nat × Int)]) = none := by
    rw [Option.some_bind]
    unfold Graph.get_road_type
    rw [hrow, Option.none_bind, Option.map_none']
  rw [hfirst]
  exact foldl_bind_none _ _

/-- claim C9 (amended): a network query with an index at or beyond `N`
(or below `-N`) raises `IndexError` — modelled as `none` — for
`get_road_type`, `is_valid_edge` and (on a non-empty network)
`get_neighbors`, and similarly for an out-of-range column index; but an
index in `[-N, -1]` is NOT rejected: Python list indexing silently wraps
it to `index + N`. -/
theorem graph_queries_out_of_range (g : Graph) (vt : VehicleType)
    (i j : Int) (hwfg : WFGraph g) :
    (((g.num_nodes : Int) ≤ i ∨ i < -(g.num_nodes : Int)) →
      g.get_road_type i j = none ∧ g.is_valid_edge i j vt = none ∧
      (1 ≤ g.num_nodes → g.get_neighbors i vt = none)) ∧
    ((0 ≤ i → i < (g.num_nodes : Int) →
      ((g.num_nodes : Int) ≤ j ∨ j < -(g.num_nodes : Int)) →
      g.get_road_type i j = none ∧ g.is_valid_edge i j vt = none)) ∧
    (-(g.num_nodes : Int) ≤ i → i < 0 →
      g.get_road_type i j = g.get_road_type (i + g.num_nodes) j) := by
  refine ⟨?_, ?_, ?_⟩
  · intro hoob
    have hrow : pyGet g.adjacency_matrix i = none := pyGet_none_of_oob hoob
    have h1 : g.get_road_type i j = none := by
      unfold Graph.get_road_type
      rw [hrow, Option.none_bind]
    refine ⟨h1, ?_, fun hN => get_neighbors_none_of_oob vt hN hoob⟩
    unfold Graph.is_valid_edge
    rw [h1, Option.map_none']
  · intro hi0 hiN hoob
    have hrow : ∃ row, pyGet g.adjacency_matrix i = some row ∧
        row.length = g.num_nodes := by
      unfold pyGet
      rw [if_pos hi0]
      have hlt : i.toNat < g.adjacency_matrix.length := by
        show i.toNat < g.num_nodes
        omega
      refine ⟨g.adjacency_matrix.get ⟨i.toNat, hlt⟩, List.get?_eq_get hlt, ?_⟩
      exact (hwfg _ (g.adjacency_matrix.get_mem _ hlt)).1
    obtain ⟨row, hrow, hlen⟩ := hrow
    have h1 : g.get_road_type i j = none := by
      unfold Graph.get_road_type
      rw [hrow, Option.some_bind]
      apply pyGet_none_of_oob
      rw [hlen]
      exact hoob
    refine ⟨h1, ?_⟩
    unfold Graph.is_valid_edge
    rw [h1, Option.map_none']
  · intro h1 h2
    unfold Graph.get_road_type
    rw [pyGet_neg_wrap h1 h2]
    rfl

theorem graph_queries_out_of_range_witness :
    WFGraph (Graph.mk [[-1, 0], [1, -1]]) ∧
    ((((Graph.mk [[-1, 0], [1, -1]]).num_nodes : Int) ≤ -1 ∨
        (-1 : Int) < -((Graph.mk [[-1, 0], [1, -1]]).num_nodes : Int)) →
      (Graph.mk [[-1, 0], [1, -1]]).get_road_type (-1) 0 = none ∧
      (Graph.mk [[-1, 0], [1, -1]]).is_valid_edge (-1) 0
        VehicleType.truck = none ∧
      (1 ≤ (Graph.mk [[-1, 0], [1, -1]]).num_nodes →
        (Graph.mk [[-1, 0], [1, -1]]).get_neighbors (-1)
          VehicleType.truck = none)) ∧
    ((0 ≤ (-1 : Int) → (-1 : Int) <
        ((Graph.mk [[-1, 0], [1, -1]]).num_nodes : Int) →
      (((Graph.mk [[-1, 0], [1, -1]]).num_nodes : Int) ≤ 0 ∨
        (0 : Int) < -((Graph.mk [[-1, 0], [1, -1]]).num_nodes : Int)) →
      (Graph.mk [[-1, 0], [1, -1]]).get_road_type (-1) 0 = none ∧
      (Graph.mk [[-1, 0], [1, -1]]).is_valid_edge (-1) 0
        VehicleType.truck = none)) ∧
    (-((Graph.mk [[-1, 0], [1, -1]]).num_nodes : Int) ≤ -1 → (-1 : Int) < 0 →
      (Graph.mk [[-1, 0], [1, -1]]).get_road_type (-1) 0 =
        (Graph.mk [[-1, 0], [1, -1]]).get_road_type
          (-1 + (Graph.mk [[-1, 0], [1, -1]]).num_nodes) 0) := by
  have hwfg : WFGraph (Graph.mk [[-1, 0], [1, -1]]) := by
    unfold WFGraph Graph.num_nodes
    decide
  exact ⟨hwfg,
    graph_queries_out_of_range (Graph.mk [[-1, 0], [1, -1]])
      VehicleType.truck (-1) 0 hwfg⟩

theorem applyPath_ok (P : Planner) :
    ∀ (p : List Nat) (v : Vehicle) (c : ℚ),
      schedCost P.graph P.cost_calc v.vtype v.current_time p = some c →
      p.head? = some v.current_node →
      ∃ v', P.applyPath v (p.drop 1) = Except.ok v' ∧
        v'.current_time = v.current_time + (p.length - 1) ∧
        v'.path = v.path ++ p.drop 1 ∧
        (∀ x, p.getLast? = some x → v'.current_node = x) ∧
        v'.total_cost = v.total_cost + c ∧
        v'.total_points = v.total_points ∧
        v'.objectives = v.objectives ∧
        v'.id = v.id ∧ v'.vtype = v.vtype := by
  intro p
  induction p with
  | nil =>
    intro v c _ hhead
    simp at hhead
  | cons a rest ih =>
    intro v c hc hhead
    rw [List.head?_cons, Option.some.injEq] at hhead
    cases rest with
    | nil =>
      rw [schedCost_singleton, Option.some.injEq] at hc
      refine ⟨v, rfl, by simp, by simp, ?_, by rw [← hc, add_zero],
        rfl, rfl, rfl, rfl⟩
      intro x hx
      rw [List.getLast?_singleton, Option.some.injEq] at hx
      rw [← hx, ← hhead]
    | cons b rest2 =>
      rw [schedCost_cons_cons] at hc
      rcases Option.bind_eq_some.mp hc with ⟨c1, hc1, hmap⟩
      rcases Option.map_eq_some'.mp hmap with ⟨c2, hc2, rfl⟩
      show ∃ v', P.applyPath v (b :: rest2) = Except.ok v' ∧ _
      by_cases hb : b = v.current_node
      · have hc10 : c1 = 0 := by
          rw [hhead, ← hb] at hc1
          exact stepCost_wait_inv hc1
        have hstep : P.applyPath v (b :: rest2) =
            P.applyPath
              { v with path := v.path ++ [b],
                       current_time := v.current_time + 1 } rest2 := by
          simp only [Planner.applyPath, if_pos hb]
        obtain ⟨v', hv', htime, hpath, hlastn, hcost, hpts, hobjs, hid, hvt⟩ :=
          ih ({ v with path := v.path ++ [b], current_time := v.current_time + 1 }) c2
            (by
              show schedCost P.graph P.cost_calc v.vtype
                (v.current_time + 1) (b :: rest2) = some c2
              exact hc2)
            (by
              show (b :: rest2).head? = some v.current_node
              rw [List.head?_cons, hb])
        refine ⟨v', by rw [hstep]; exact hv', ?_, ?_, ?_, ?_, hpts, hobjs,
          hid, hvt⟩
        · rw [htime]
          show _ = v.current_time + ((rest2.length + 1 + 1) - 1)
          simp only [List.length_cons]
          omega
        · rw [hpath]
          show (v.path ++ [b]) ++ rest2 = v.path ++ (b :: rest2)
          rw [List.append_assoc, List.singleton_append]
        · intro x hx
          exact hlastn x (by rw [← List.getLast?_cons_cons (a := a)]; exact hx)
        · rw [hcost, hc10]
          show v.total_cost + c2 = v.total_cost + (0 + c2)
          ring
      · have hab : ¬ (v.current_node = b) := fun h => hb h.symm
        have hc1' : stepCost P.graph P.cost_calc v.vtype v.current_time
            v.current_node b = some c1 := by
          rw [← hhead]
          exact hc1
        rcases stepCost_move hab hc1' with ⟨rt, hroad, hcost1⟩
        have hadd : (match (some c1 : Option ℚ) with
            | some c => if c = 0 then (0 : ℚ) else c
            | none => 0) = c1 := by
          by_cases hc10 : c1 = 0 <;> simp [hc10]
        have hstep : P.applyPath v (b :: rest2) =
            P.applyPath
              { v with path := v.path ++ [b],
                       current_node := b,
                       current_time := v.current_time + 1,
                       total_cost := v.total_cost + c1 } rest2 := by
          simp only [Planner.applyPath, if_neg hb, hroad, hcost1]
          by_cases hc10 : c1 = 0 <;> simp [hc10]
        obtain ⟨v', hv', htime, hpath, hlastn, hcost, hpts, hobjs, hid, hvt⟩ :=
          ih ({ v with path := v.path ++ [b], current_node := b, current_time := v.current_time + 1, total_cost := v.total_cost + c1 }) c2
            (by
              show schedCost P.graph P.cost_calc v.vtype
                (v.current_time + 1) (b :: rest2) = some c2
              exact hc2)
            (by
              show (b :: rest2).head? = some b
              rw [List.head?_cons])
        refine ⟨v', by rw [hstep]; exact hv', ?_, ?_, ?_, ?_, hpts, hobjs,
          hid, hvt⟩
        · rw [htime]
          show _ = v.current_time + ((rest2.length + 1 + 1) - 1)
          simp only [List.length_cons]
          omega
        · rw [hpath]
          show (v.path ++ [b]) ++ rest2 = v.path ++ (b :: rest2)
          rw [List.append_assoc, List.singleton_append]
        · intro x hx
          exact hlastn x (by rw [← List.getLast?_cons_cons (a := a)]; exact hx)
        · rw [hcost]
          show v.total_cost + c1 + c2 = v.total_cost + (c1 + c2)
          ring

theorem find_path_outcome (gr : Graph) (cc : CostCalculator)
    (vt : VehicleType) (s0 t0 target deadline T : Nat)
    (hwfg : WFGraph gr) (hwfc : WFCost cc T)
    (hs0 : s0 < gr.num_nodes) (ht0 : t0 ≤ T) :
    SearchOutcome (SearchCtx.mk gr cc target vt deadline T) s0 t0
      (find_path gr cc s0 t0 target vt deadline T) := by
  have hinv := initial_inv (SearchCtx.mk gr cc target vt deadline T) s0 t0
    hs0 ht0
  have hmeas : pqMeasure gr.num_nodes T [Entry.mk 0 0 s0 t0 [s0]] <
      searchFuel gr.num_nodes T t0 := by
    show pqMeasure gr.num_nodes T [Entry.mk 0 0 s0 t0 [s0]] <
      (gr.num_nodes + 2) ^ (T + 1 - t0) + 1
    have h1 : pqMeasure gr.num_nodes T [Entry.mk 0 0 s0 t0 [s0]] =
        (gr.num_nodes + 2) ^ (T + 1 - t0) := by
      rw [pqMeasure_cons]
      show entryWeight gr.num_nodes T (Entry.mk 0 0 s0 t0 [s0]) +
        pqMeasure gr.num_nodes T [] = _
      simp [pqMeasure, entryWeight]
    omega
  exact searchLoop_correct (SearchCtx.mk gr cc target vt deadline T)
    s0 t0 hwfg hwfc (searchFuel gr.num_nodes T t0)
    [Entry.mk 0 0 s0 t0 [s0]] (fun _ => none) hmeas hinv

theorem find_path_no_error {gr : Graph} {cc : CostCalculator}
    {vt : VehicleType} {s0 t0 target deadline T : Nat} {u : Unit}
    (hwfg : WFGraph gr) (hwfc : WFCost cc T)
    (hs0 : s0 < gr.num_nodes) (ht0 : t0 ≤ T) :
    ¬ (find_path gr cc s0 t0 target vt deadline T = Except.error u) := by
  intro h
  have houtcome := find_path_outcome gr cc vt s0 t0 target deadline T
    hwfg hwfc hs0 ht0
  rw [h] at houtcome
  exact houtcome

theorem find_path_some_spec {gr : Graph} {cc : CostCalculator}
    {vt : VehicleType} {s0 t0 target deadline T : Nat}
    {p : List Nat} {c : ℚ} {a : Nat}
    (hwfg : WFGraph gr) (hwfc : WFCost cc T)
    (hs0 : s0 < gr.num_nodes) (ht0 : t0 ≤ T)
    (h : find_path gr cc s0 t0 target vt deadline T =
      Except.ok (some (p, c, a))) :
    p.head? = some s0 ∧ p.getLast? = some target ∧
    schedCost gr cc vt t0 p = some c ∧
    a = t0 + (p.length - 1) ∧ a ≤ deadline ∧ a ≤ T ∧
    (∀ q cq, ReachesByH gr cc vt s0 t0 target deadline T q →
      schedCost gr cc vt t0 q = some cq → c ≤ cq) := by
  have houtcome := find_path_outcome gr cc vt s0 t0 target deadline T
    hwfg hwfc hs0 ht0
  rw [h] at houtcome
  dsimp only [SearchOutcome] at houtcome
  obtain ⟨hhead, hlast, harr, hdl, hT, ⟨c', hc', hc'le⟩, hmin⟩ := houtcome
  have hpfeas : ReachesByH gr cc vt s0 t0 target deadline T p := by
    refine ⟨⟨hhead, hlast, ?_, ?_⟩, ?_⟩
    · rw [hc']
      exact Option.some_ne_none c'
    · omega
    · omega
  have hcexact : c' = c := by
    have h1 := hmin p c' hpfeas hc'
    linarith
  exact ⟨hhead, hlast, by rw [hc', hcexact], harr, hdl, hT, hmin⟩

theorem getLast?_append_replicate {p : List Nat} {x : Nat} (n : Nat)
    (h : p.getLast? = some x) :
    (p ++ List.replicate n x).getLast? = some x := by
  cases n with
  | zero => simpa using h
  | succ m =>
    rw [List.getLast?_append_of_ne_nil]
    · exact List.getLast?_replicate _ _ ▸ rfl
    · simp

theorem schedCost_append_replicate (gr : Graph) (cc : CostCalculator)
    (vt : VehicleType) {p : List Nat} {x : Nat} (t : Nat)
    (h : p.getLast? = some x) :
    ∀ n, schedCost gr cc vt t (p ++ List.replicate n x) =
      schedCost gr cc vt t p := by
  intro n
  induction n with
  | zero => simp
  | succ m ih =>
    rw [List.replicate_succ', ← List.append_assoc,
      schedCost_snoc gr cc vt (p ++ List.replicate m x) t x x
        (getLast?_append_replicate m h),
      stepCost_wait, ih]
    cases hc : schedCost gr cc vt t p with
    | none => rfl
    | some c => simp

theorem calculate_score_pos_window {late_penalty : ℚ} {arrival : Nat}
    {obj : Objective} (h : 0 < calculate_score late_penalty arrival obj) :
    obj.release ≤ arrival ∧ arrival ≤ obj.deadline := by
  by_contra hcon
  rw [not_and_or, not_le, not_le] at hcon
  rw [calculate_score, if_pos (by tauto)] at h
  exact lt_irrefl 0 h

theorem sched_nodes_lt {gr : Graph} {cc : CostCalculator} {vt : VehicleType}
    (hwfg : WFGraph gr) :
    ∀ (p : List Nat) (t : Nat) (c : ℚ) (h0 : Nat),
      schedCost gr cc vt t p = some c → p.head? = some h0 →
      h0 < gr.num_nodes → ∀ x ∈ p, x < gr.num_nodes := by
  intro p
  induction p with
  | nil =>
    intro t c h0 _ hh
    simp at hh
  | cons a rest ih =>
    intro t c h0 hc hh hlt x hx
    rw [List.head?_cons, Option.some.injEq] at hh
    obtain rfl : a = h0 := hh
    rw [List.mem_cons] at hx
    cases hx with
    | inl hxa =>
      rw [hxa]
      exact hlt
    | inr hxr =>
      cases rest with
      | nil => simp at hxr
      | cons b rest2 =>
        rw [schedCost_cons_cons] at hc
        rcases Option.bind_eq_some.mp hc with ⟨c1, hc1, hmap⟩
        rcases Option.map_eq_some'.mp hmap with ⟨c2, hc2, _⟩
        have hbN : b < gr.num_nodes := by
          by_cases hab : a = b
          · rw [← hab]; exact hlt
          · exact (stepCost_lt hwfg hab hc1).2
        exact ih (t + 1) c2 b hc2 rfl hbN x hxr

theorem evalVehicle_spec {P : Planner} {obj : Objective} {v : Vehicle}
    (hwfg : WFGraph P.graph) (hwfc : WFCost P.cost_calc P.T)
    (hnode : v.current_node < P.graph.num_nodes)
    (htime : v.current_time ≤ P.T) :
    (∀ u, ¬ (P.evalVehicle obj v = Except.error u)) ∧
    (∀ path2 cost arrival2 points benefit,
      P.evalVehicle obj v =
        Except.ok (some (path2, cost, arrival2, points, benefit)) →
      schedCost P.graph P.cost_calc v.vtype v.current_time path2 =
        some cost ∧
      path2.head? = some v.current_node ∧
      path2.getLast? = some obj.node ∧
      arrival2 = v.current_time + (path2.length - 1) ∧
      points = calculate_score P.late_penalty arrival2 obj ∧
      benefit = points - cost ∧ 0 ≤ cost) := by
  unfold Planner.evalVehicle
  by_cases hdl : v.current_time > obj.deadline
  · rw [if_pos hdl]
    refine ⟨fun u h => by simp at h, fun _ _ _ _ _ h => by simp at h⟩
  · rw [if_neg hdl]
    cases hfp : find_path P.graph P.cost_calc v.current_node v.current_time
        obj.node v.vtype obj.deadline P.T with
    | error u => exact absurd hfp (find_path_no_error hwfg hwfc hnode htime)
    | ok r =>
      cases r with
      | none =>
        refine ⟨fun u h => by simp at h, fun _ _ _ _ _ h => by simp at h⟩
      | some tri =>
        obtain ⟨path, cost0, arrival⟩ := tri
        obtain ⟨hhead, hlast, hcost, harr, hdl2, hT2, _⟩ :=
          find_path_some_spec hwfg hwfc hnode htime hfp
        have hlen1 : 1 ≤ path.length := by
          cases path with
          | nil => simp at hhead
          | cons a rest => simp
        refine ⟨fun u h => by simp at h, ?_⟩
        intro path2 cost arrival2 points benefit h
        simp only [Except.ok.injEq, Option.some.injEq, Prod.mk.injEq] at h
        obtain ⟨hp2, hc2, ha2, hpt2, hb2⟩ := h
        by_cases harel : arrival < obj.release
        · rw [if_pos harel] at hp2 ha2 hpt2 hb2
          have hsched : schedCost P.graph P.cost_calc v.vtype
              v.current_time path2 = some cost := by
            rw [← hp2, ← hc2,
              schedCost_append_replicate P.graph P.cost_calc v.vtype
                v.current_time hlast (obj.release - arrival)]
            exact hcost
          have hhead2 : path2.head? = some v.current_node := by
            rw [← hp2]
            cases path with
            | nil => simp at hhead
            | cons a rest =>
              rw [List.cons_append, List.head?_cons]
              rw [List.head?_cons] at hhead
              exact hhead
          have hlast2 : path2.getLast? = some obj.node := by
            rw [← hp2]
            exact getLast?_append_replicate (obj.release - arrival) hlast
          have hlen2 : path2.length =
              path.length + (obj.release - arrival) := by
            rw [← hp2, List.length_append, List.length_replicate]
          refine ⟨hsched, hhead2, hlast2, ?_, ?_, ?_, ?_⟩
          · rw [hlen2, ← ha2]
            omega
          · rw [← ha2, ← hpt2]
          · rw [← hb2, ← hpt2, hc2]
          · rw [← hc2]
            exact schedCost_nonneg hwfg hwfc path v.current_time cost0 hcost
        · rw [if_neg harel] at hp2 ha2 hpt2 hb2
          refine ⟨?_, ?_, ?_, ?_, ?_, ?_, ?_⟩
          · rw [← hp2, ← hc2]
            exact hcost
          · rw [← hp2]
            exact hhead
          · rw [← hp2]
            exact hlast
          · rw [← hp2, ← ha2]
            exact harr
          · rw [← ha2, ← hpt2]
          · rw [← hb2, ← hpt2, hc2]
          · rw [← hc2]
            exact schedCost_nonneg hwfg hwfc path v.current_time cost0 hcost

/-- What is true of the winning candidate of the best-vehicle scan: its
index points at its vehicle in the scanned list, the evaluation equation
holds, and its benefit is strictly positive. -/
def BestOK (P : Planner) (obj : Objective) (vehicles : List Vehicle)
    (b : BestData) : Prop :=
  vehicles.get? b.idx = some b.veh ∧
  P.evalVehicle obj b.veh =
    Except.ok (some (b.path, b.cost, b.arrival, b.points, b.benefit)) ∧
  0 < b.benefit

theorem pickBest_some {P : Planner} {obj : Objective}
    {vehicles : List Vehicle} :
    ∀ (l : List Vehicle) (i : Nat) (best : Option BestData),
      (∀ j w, l.get? j = some w → vehicles.get? (i + j) = some w) →
      (∀ b, best = some b → BestOK P obj vehicles b) →
      ∀ b, P.pickBest obj l i best = Except.ok (some b) →
        BestOK P obj vehicles b := by
  intro l
  induction l with
  | nil =>
    intro i best hsub hbest b h
    simp only [Planner.pickBest, Except.ok.injEq] at h
    exact hbest b h
  | cons v rest ih =>
    intro i best hsub hbest b h
    have hsub' : ∀ j w, rest.get? j = some w →
        vehicles.get? ((i + 1) + j) = some w := by
      intro j w hj
      have h2 := hsub (j + 1) w (by simpa using hj)
      rwa [show i + (j + 1) = (i + 1) + j by omega] at h2
    cases heval : P.evalVehicle obj v with
    | error u =>
      simp only [Planner.pickBest, heval] at h
      exact absurd h (by simp)
    | ok r =>
      cases r with
      | none =>
        simp only [Planner.pickBest, heval] at h
        exact ih (i + 1) best hsub' hbest b h
      | some tri =>
        obtain ⟨path, cost, arrival, points, benefit⟩ := tri
        simp only [Planner.pickBest, heval] at h
        have hvi : vehicles.get? i = some v := by
          have h0 := hsub 0 v (by simp)
          rwa [Nat.add_zero] at h0
        cases best with
        | none =>
          simp only [decide_eq_true_eq] at h
          by_cases hpos : (0 : ℚ) < benefit
          · rw [if_pos hpos] at h
            refine ih (i + 1) _ hsub' ?_ b h
            intro b' hb'
            rw [Option.some.injEq] at hb'
            rw [← hb']
            exact ⟨hvi, heval, hpos⟩
          · rw [if_neg hpos] at h
            exact ih (i + 1) none hsub' hbest b h
        | some b0 =>
          simp only [decide_eq_true_eq] at h
          by_cases hcond : benefit > b0.benefit ∧ benefit > 0
          · rw [if_pos hcond] at h
            refine ih (i + 1) _ hsub' ?_ b h
            intro b' hb'
            rw [Option.some.injEq] at hb'
            rw [← hb']
            exact ⟨hvi, heval, hcond.2⟩
          · rw [if_neg hcond] at h
            exact ih (i + 1) (some b0) hsub' hbest b h

theorem pickBest_no_error {P : Planner} {obj : Objective} :
    ∀ (l : List Vehicle) (i : Nat) (best : Option BestData),
      (∀ v ∈ l, ∀ u, ¬ (P.evalVehicle obj v = Except.error u)) →
      ∃ r, P.pickBest obj l i best = Except.ok r := by
  intro l
  induction l with
  | nil =>
    intro i best _
    exact ⟨best, rfl⟩
  | cons v rest ih =>
    intro i best hok
    have hok' : ∀ w ∈ rest, ∀ u, ¬ (P.evalVehicle obj w = Except.error u) :=
      fun w hw => hok w (List.mem_cons_of_mem v hw)
    cases heval : P.evalVehicle obj v with
    | error u => exact absurd heval (hok v (List.mem_cons_self v rest) u)
    | ok r =>
      cases r with
      | none =>
        obtain ⟨r2, hr2⟩ := ih (i + 1) best hok'
        refine ⟨r2, ?_⟩
        simp only [Planner.pickBest, heval]
        exact hr2
      | some tri =>
        obtain ⟨path, cost, arrival, points, benefit⟩ := tri
        cases best with
        | none =>
          by_cases hpos : (0 : ℚ) < benefit
          · obtain ⟨r2, hr2⟩ := ih (i + 1)
              (some (BestData.mk i v path cost arrival points benefit)) hok'
            refine ⟨r2, ?_⟩
            simp only [Planner.pickBest, heval, decide_eq_true_eq]
            rw [if_pos hpos]
            exact hr2
          · obtain ⟨r2, hr2⟩ := ih (i + 1) none hok'
            refine ⟨r2, ?_⟩
            simp only [Planner.pickBest, heval, decide_eq_true_eq]
            rw [if_neg hpos]
            exact hr2
        | some b0 =>
          by_cases hcond : benefit > b0.benefit ∧ benefit > 0
          · obtain ⟨r2, hr2⟩ := ih (i + 1)
              (some (BestData.mk i v path cost arrival points benefit)) hok'
            refine ⟨r2, ?_⟩
            simp only [Planner.pickBest, heval, decide_eq_true_eq]
            rw [if_pos hcond]
            exact hr2
          · obtain ⟨r2, hr2⟩ := ih (i + 1) (some b0) hok'
            refine ⟨r2, ?_⟩
            simp only [Planner.pickBest, heval, decide_eq_true_eq]
            rw [if_neg hcond]
            exact hr2

theorem applyPath_objectives {P : Planner} :
    ∀ (steps : List Nat) (v v' : Vehicle),
      P.applyPath v steps = Except.ok v' → v'.objectives = v.objectives := by
  intro steps
  induction steps with
  | nil =>
    intro v v' h
    simp only [Planner.applyPath, Except.ok.injEq] at h
    rw [← h]
  | cons node rest ih =>
    intro v v' h
    by_cases hn : node = v.current_node
    · simp only [Planner.applyPath, if_pos hn] at h
      exact ih { v with path := v.path ++ [node], current_time := v.current_time + 1 } v' h
    · simp only [Planner.applyPath, if_neg hn] at h
      cases hrt : P.graph.get_road_type (v.current_node : Int) (node : Int) with
      | none =>
        simp only [hrt] at h
        exact absurd h (by simp)
      | some rt =>
        simp only [hrt] at h
        cases hgc : P.cost_calc.get_cost rt v.current_time v.vtype with
        | none =>
          simp only [hgc] at h
          exact absurd h (by simp)
        | some ec =>
          simp only [hgc] at h
          have h2 := ih _ v' h
          exact h2

/-- How many times objective `o` occurs across the fleet's committed
objective lists. -/
def objCount (vehicles : List Vehicle) (o : Objective) : Nat :=
  (vehicles.map fun v => v.objectives.count o).sum

theorem objCount_set {o : Objective} :
    ∀ (vehicles : List Vehicle) (idx : Nat) (v0 w : Vehicle),
      vehicles.get? idx = some v0 →
      objCount (vehicles.set idx w) o + v0.objectives.count o =
        objCount vehicles o + w.objectives.count o := by
  intro vehicles
  induction vehicles with
  | nil =>
    intro idx v0 w hget
    simp at hget
  | cons v rest ih =>
    intro idx v0 w hget
    cases idx with
    | zero =>
      rw [List.get?_cons_zero, Option.some.injEq] at hget
      rw [List.set_cons_zero]
      show (w.objectives.count o + objCount rest o) + v0.objectives.count o =
        (v.objectives.count o + objCount rest o) + w.objectives.count o
      rw [← hget]
      omega
    | succ j =>
      rw [List.get?_cons_succ] at hget
      rw [List.set_cons_succ]
      show (v.objectives.count o + objCount (rest.set j w) o) +
          v0.objectives.count o =
        (v.objectives.count o + objCount rest o) + w.objectives.count o
      have h2 := ih j v0 w hget
      omega

theorem assign_objective_count {P : Planner}
    {vehicles vehicles' : List Vehicle} {obj : Objective}
    (h : P.assign_objective vehicles obj = Except.ok vehicles')
    (o : Objective) :
    objCount vehicles' o ≤
      objCount vehicles o + (if obj = o then 1 else 0) := by
  unfold Planner.assign_objective at h
  cases hpk : P.pickBest obj vehicles 0 none with
  | error u =>
    simp only [hpk] at h
    exact absurd h (by simp)
  | ok r =>
    cases r with
    | none =>
      simp only [hpk, Except.ok.injEq] at h
      rw [← h]
      exact Nat.le_add_right _ _
    | some b =>
      simp only [hpk] at h
      obtain ⟨hget, _, _⟩ :=
        pickBest_some vehicles 0 none
          (fun j w hj => by simpa using hj)
          (fun b' hb' => by simp at hb') b hpk
      cases hap : P.applyPath b.veh (b.path.drop 1) with
      | error u =>
        simp only [hap] at h
        exact absurd h (by simp)
      | ok v' =>
        simp only [hap, Except.ok.injEq] at h
        have hobjs := applyPath_objectives _ _ _ hap
        have hset := objCount_set (o := o) vehicles b.idx b.veh { v' with total_points := v'.total_points + b.points, objectives := v'.objectives ++ [obj] } hget
        rw [← h]
        have hcnt : ({ v' with total_points := v'.total_points + b.points, objectives := v'.objectives ++ [obj] } : Vehicle).objectives.count o = b.veh.objectives.count o + (if obj = o then 1 else 0) := by
          show (v'.objectives ++ [obj]).count o = _
          rw [List.count_append, hobjs]
          by_cases hoo : obj = o
          · rw [if_pos hoo, hoo]
            simp
          · rw [if_neg hoo]
            have : ([obj].count o) = 0 := by
              simp only [List.count_singleton']
              simp [hoo]
            rw [this]
        omega

theorem assignAll_count {P : Planner} :
    ∀ (objs : List Objective) (vs vehicles' : List Vehicle),
      P.assignAll vs objs = Except.ok vehicles' →
      ∀ o, objCount vehicles' o ≤ objCount vs o + objs.count o := by
  intro objs
  induction objs with
  | nil =>
    intro vs vehicles' h o
    simp only [Planner.assignAll, Except.ok.injEq] at h
    rw [← h]
    simp
  | cons obj rest ih =>
    intro vs vehicles' h o
    simp only [Planner.assignAll] at h
    cases hao : P.assign_objective vs obj with
    | error u =>
      rw [hao] at h
      exact absurd h (by simp)
    | ok vs2 =>
      rw [hao] at h
      have h1 := assign_objective_count hao o
      have h2 := ih vs2 vehicles' h o
      have hcnt : (obj :: rest).count o =
          rest.count o + (if obj = o then 1 else 0) := by
        by_cases hoo : obj = o
        · rw [if_pos hoo, hoo, List.count_cons_self]
        · rw [if_neg hoo, List.count_cons_of_ne (fun hne => hoo hne.symm)]
          omega
      omega

theorem objCount_pad (T : Nat) (vehicles : List Vehicle) (o : Objective) :
    objCount (vehicles.map (padPath T)) o = objCount vehicles o := by
  unfold objCount
  rw [List.map_map]
  rfl

theorem objCount_init (P : Planner) (o : Objective) :
    objCount P.init_vehicles o = 0 := rfl

/-- claim C6: across a full solve every objective is committed to at
most one vehicle and at most once — the number of occurrences of an
objective in the fleet's committed lists never exceeds its multiplicity
in the input, and with duplicate-free input each objective appears at
most once; an objective skipped for lack of a positive-benefit candidate
is never retried (`solve` folds over the priority list exactly once). -/
theorem objective_assigned_at_most_once {P : Planner}
    {vehicles : List Vehicle} {sol : List (String × List Nat)}
    (h : P.solve = Except.ok (vehicles, sol)) (o : Objective) :
    objCount vehicles o ≤ P.objectives.count o ∧
    (P.objectives.Nodup → objCount vehicles o ≤ 1) := by
  unfold Planner.solve at h
  cases haa : P.assignAll P.init_vehicles
      (prioritize_objectives P.objectives) with
  | error u =>
    simp only [haa] at h
    exact absurd h (by simp)
  | ok vs =>
    simp only [haa, Except.ok.injEq, Prod.mk.injEq] at h
    obtain ⟨hveh, _⟩ := h
    have h1 := assignAll_count (prioritize_objectives P.objectives)
      P.init_vehicles vs haa o
    rw [objCount_init] at h1
    have hperm : List.count o (prioritize_objectives P.objectives) =
        List.count o P.objectives :=
      (stableSort_perm _ P.objectives).count_eq o
    have hle : objCount vehicles o ≤ P.objectives.count o := by
      rw [← hveh, objCount_pad]
      calc objCount vs o ≤ 0 + List.count o (prioritize_objectives
          P.objectives) := h1
        _ = P.objectives.count o := by rw [hperm]; omega
    refine ⟨hle, fun hnd => ?_⟩
    exact le_trans hle (List.nodup_iff_count_le_one.mp hnd o)

def oC6 : Objective := Objective.mk 1 0 2 50

def vehC6 : List Vehicle :=
  match pC4.solve with
  | Except.ok (vs, _) => vs
  | _ => []

def solC6 : List (String × List Nat) :=
  match pC4.solve with
  | Except.ok (_, s) => s
  | _ => []

theorem objective_assigned_at_most_once_witness :
    objCount vehC6 oC6 ≤ pC4.objectives.count oC6 ∧
    (pC4.objectives.Nodup → objCount vehC6 oC6 ≤ 1) :=
  objective_assigned_at_most_once
    (show pC4.solve = Except.ok (vehC6, solC6) by decide) oC6

/-- The per-vehicle state invariant maintained by the planner between
objective commits. -/
def VehInv (P : Planner) (v : Vehicle) : Prop :=
  v.current_time = v.path.length - 1 ∧
  v.path.head? = some P.start_node ∧
  v.path.getLast? = some v.current_node ∧
  v.current_node < P.graph.num_nodes ∧
  v.current_time < P.T

theorem init_vehicles_inv (P : Planner)
    (hstart : P.start_node < P.graph.num_nodes) (hT : 1 ≤ P.T) :
    ∀ v ∈ P.init_vehicles, VehInv P v := by
  intro v hv
  unfold Planner.init_vehicles at hv
  rw [List.mem_append] at hv
  have hcase : v.current_time = 0 ∧ v.path = [P.start_node] ∧
      v.current_node = P.start_node := by
    cases hv with
    | inl h =>
      obtain ⟨i, _, rfl⟩ := List.mem_map.mp h
      exact ⟨rfl, rfl, rfl⟩
    | inr h =>
      obtain ⟨i, _, rfl⟩ := List.mem_map.mp h
      exact ⟨rfl, rfl, rfl⟩
  obtain ⟨ht, hp, hn⟩ := hcase
  refine ⟨?_, ?_, ?_, ?_, ?_⟩
  · rw [ht, hp]
    simp
  · rw [hp, List.head?_cons]
  · rw [hp, hn, List.getLast?_singleton]
  · rw [hn]
    exact hstart
  · rw [ht]
    omega

theorem head?_append_left {x : Nat} : ∀ {A : List Nat} (B : List Nat),
    A.head? = some x → (A ++ B).head? = some x := by
  intro A B h
  cases A with
  | nil => simp at h
  | cons a t =>
    rw [List.head?_cons, Option.some.injEq] at h
    rw [List.cons_append, List.head?_cons, h]

theorem map_id_set : ∀ (l : List Vehicle) (i : Nat) (a b : Vehicle),
    l.get? i = some a → b.id = a.id →
    (l.set i b).map (fun v => v.id) = l.map (fun v => v.id) := by
  intro l
  induction l with
  | nil =>
    intro i a b hget _
    simp at hget
  | cons v rest ih =>
    intro i a b hget hid
    cases i with
    | zero =>
      rw [List.get?_cons_zero, Option.some.injEq] at hget
      rw [List.set_cons_zero, List.map_cons, List.map_cons, hid, hget]
    | succ j =>
      rw [List.get?_cons_succ] at hget
      rw [List.set_cons_succ, List.map_cons, List.map_cons,
        ih j a b hget hid]

theorem assign_objective_inv {P : Planner} (hwfg : WFGraph P.graph)
    (hwfc : WFCost P.cost_calc P.T) {obj : Objective}
    (hdl : obj.deadline < P.T) {vehicles : List Vehicle}
    (hinv : ∀ v ∈ vehicles, VehInv P v) :
    ∃ vehicles', P.assign_objective vehicles obj = Except.ok vehicles' ∧
      (∀ v ∈ vehicles', VehInv P v) ∧
      vehicles'.map (fun v => v.id) = vehicles.map (fun v => v.id) := by
  have hnoerr : ∀ v ∈ vehicles, ∀ u,
      ¬ (P.evalVehicle obj v = Except.error u) := by
    intro v hv u
    obtain ⟨hi1, _, _, hi4, hi5⟩ := hinv v hv
    exact (evalVehicle_spec hwfg hwfc hi4 (le_of_lt hi5)).1 u
  obtain ⟨r, hpk⟩ := pickBest_no_error vehicles 0 none hnoerr
  cases r with
  | none =>
    refine ⟨vehicles, ?_, hinv, rfl⟩
    simp only [Planner.assign_objective, hpk]
  | some b =>
    obtain ⟨hget, heval, hpos⟩ :=
      pickBest_some vehicles 0 none
        (fun j w hj => by simpa using hj)
        (fun b' hb' => by simp at hb') b hpk
    have hbmem : b.veh ∈ vehicles := List.get?_mem hget
    obtain ⟨hv1, hv2, hv3, hv4, hv5⟩ := hinv b.veh hbmem
    obtain ⟨_, hspec⟩ := evalVehicle_spec hwfg hwfc hv4 (le_of_lt hv5)
    obtain ⟨hsched, hhead2, hlast2, harr2, hpts, hbene, hc0⟩ :=
      hspec b.path b.cost b.arrival b.points b.benefit heval
    have hppos : 0 < b.points := by
      rw [hbene] at hpos
      linarith
    have hwin := calculate_score_pos_window (by rw [← hpts]; exact hppos)
    have harrT : b.arrival < P.T := lt_of_le_of_lt hwin.2 hdl
    obtain ⟨v', hap, htime, hpath, hlastn, hcost, hptsv, hobjsv, hid, hvt⟩ :=
      applyPath_ok P b.path b.veh b.cost hsched hhead2
    have hlen2 : 1 ≤ b.path.length := by
      cases hbp : b.path with
      | nil => rw [hbp] at hhead2; simp at hhead2
      | cons x t => simp
    have hlen0 : 1 ≤ b.veh.path.length := by
      cases hbp : b.veh.path with
      | nil => rw [hbp] at hv2; simp at hv2
      | cons x t => simp
    have hnode' : v'.current_node = obj.node := hlastn obj.node hlast2
    have hobjnode : obj.node < P.graph.num_nodes := by
      have hmem : obj.node ∈ b.path := List.mem_of_mem_getLast? hlast2
      exact sched_nodes_lt hwfg b.path b.veh.current_time b.cost
        b.veh.current_node hsched hhead2 hv4 obj.node hmem
    refine ⟨vehicles.set b.idx { v' with total_points := v'.total_points + b.points, objectives := v'.objectives ++ [obj] }, ?_, ?_, ?_⟩
    · simp only [Planner.assign_objective, hpk, hap]
    · intro w hw
      cases List.mem_or_eq_of_mem_set hw with
      | inl hwmem => exact hinv w hwmem
      | inr hweq =>
        rw [hweq]
        refine ⟨?_, ?_, ?_, ?_, ?_⟩
        · show v'.current_time = (v'.path).length - 1
          rw [htime, hpath, List.length_append, List.length_drop, hv1]
          omega
        · show v'.path.head? = some P.start_node
          rw [hpath]
          exact head?_append_left _ hv2
        · show v'.path.getLast? = some v'.current_node
          rw [hpath, hnode']
          cases hbp : b.path with
          | nil => rw [hbp] at hhead2; simp at hhead2
          | cons x t =>
            cases t with
            | nil =>
              have hxn : x = b.veh.current_node := by
                rw [hbp, List.head?_cons, Option.some.injEq] at hhead2
                exact hhead2
              have hxo : x = obj.node := by
                rw [hbp, List.getLast?_singleton, Option.some.injEq] at hlast2
                exact hlast2
              show (b.veh.path ++ [x].drop 1).getLast? = some obj.node
              show (b.veh.path ++ ([] : List Nat)).getLast? = some obj.node
              rw [List.append_nil, hv3, ← hxn, hxo]
            | cons y t2 =>
              show (b.veh.path ++ (x :: y :: t2).drop 1).getLast? =
                some obj.node
              show (b.veh.path ++ (y :: t2)).getLast? = some obj.node
              rw [List.getLast?_append_of_ne_nil]
              · rw [← List.getLast?_cons_cons (a := x), ← hbp]
                exact hlast2
              · simp
        · show v'.current_node < P.graph.num_nodes
          rw [hnode']
          exact hobjnode
        · show v'.current_time < P.T
          rw [htime, ← harr2]
          exact harrT
    · exact map_id_set vehicles b.idx b.veh _ hget (by show v'.id = _; rw [hid])

theorem assignAll_inv {P : Planner} (hwfg : WFGraph P.graph)
    (hwfc : WFCost P.cost_calc P.T) :
    ∀ (objs : List Objective) (vs : List Vehicle),
      (∀ obj ∈ objs, obj.deadline < P.T) →
      (∀ v ∈ vs, VehInv P v) →
      ∃ vs', P.assignAll vs objs = Except.ok vs' ∧
        (∀ v ∈ vs', VehInv P v) ∧
        vs'.map (fun v => v.id) = vs.map (fun v => v.id) := by
  intro objs
  induction objs with
  | nil =>
    intro vs _ hinv
    exact ⟨vs, rfl, hinv, rfl⟩
  | cons obj rest ih =>
    intro vs hdl hinv
    obtain ⟨vs2, hok2, hinv2, hids2⟩ :=
      assign_objective_inv hwfg hwfc
        (hdl obj (List.mem_cons_self obj rest)) hinv
    obtain ⟨vs', hok', hinv', hids'⟩ :=
      ih vs2 (fun o ho => hdl o (List.mem_cons_of_mem obj ho)) hinv2
    refine ⟨vs', ?_, hinv', hids'.trans hids2⟩
    simp only [Planner.assignAll, hok2]
    exact hok'

theorem init_ids (P : Planner) :
    P.init_vehicles.map (fun v => v.id) =
      ["truck1", "truck2", "truck3", "drone1", "drone2"] := rfl

/-- claim C4 (amended with the horizon discipline): provided the network
and cost data are well formed, the start node is in range, `T ≥ 1`, and
every objective's deadline lies strictly below the horizon `T`, `solve`
succeeds and its solution maps the five vehicle ids `truck1..3`,
`drone1..2`, in fleet order, each to a path of length exactly `T` whose
first node is the start node. -/
theorem solve_paths_full_horizon (P : Planner)
    (hwfg : WFGraph P.graph) (hwfc : WFCost P.cost_calc P.T)
    (hstart : P.start_node < P.graph.num_nodes) (hT : 1 ≤ P.T)
    (hdl : ∀ obj ∈ P.objectives, obj.deadline < P.T) :
    ∃ vehicles sol, P.solve = Except.ok (vehicles, sol) ∧
      sol.map Prod.fst = ["truck1", "truck2", "truck3", "drone1", "drone2"] ∧
      ∀ pr ∈ sol, pr.2.length = P.T ∧ pr.2.head? = some P.start_node := by
  obtain ⟨vs', hok, hinv', hids⟩ := assignAll_inv hwfg hwfc
    (prioritize_objectives P.objectives) P.init_vehicles
    (fun o ho => hdl o ((stableSort_perm _ P.objectives).subset ho))
    (init_vehicles_inv P hstart hT)
  refine ⟨vs'.map (padPath P.T),
    (vs'.map (padPath P.T)).map (fun v => (v.id, v.path)), ?_, ?_, ?_⟩
  · unfold Planner.solve
    simp only [hok]
  · rw [List.map_map, List.map_map]
    show vs'.map (fun v => v.id) = _
    rw [hids, init_ids]
  · intro pr hpr
    obtain ⟨v, hv, hveq⟩ := List.mem_map.mp hpr
    obtain ⟨v0, hv0, hv0eq⟩ := List.mem_map.mp hv
    obtain ⟨h1, h2, _, _, h5⟩ := hinv' v0 hv0
    have hlen0 : 1 ≤ v0.path.length := by
      cases hp0 : v0.path with
      | nil => rw [hp0] at h2; simp at h2
      | cons x t => simp
    rw [← hveq, ← hv0eq]
    constructor
    · show (v0.path ++
        List.replicate (P.T - v0.path.length) v0.current_node).length = P.T
      rw [List.length_append, List.length_replicate]
      omega
    · show (v0.path ++
        List.replicate (P.T - v0.path.length) v0.current_node).head? =
          some P.start_node
      exact head?_append_left _ h2

def pC4w : Planner :=
  Planner.mk grC4 ccC4 0 [Objective.mk 1 0 1 50] 1 2

theorem solve_paths_full_horizon_witness :
    (WFGraph pC4w.graph ∧ WFCost pC4w.cost_calc pC4w.T ∧
      pC4w.start_node < pC4w.graph.num_nodes ∧ 1 ≤ pC4w.T ∧
      ∀ obj ∈ pC4w.objectives, obj.deadline < pC4w.T) ∧
    (∃ vehicles sol, pC4w.solve = Except.ok (vehicles, sol) ∧
      sol.map Prod.fst = ["truck1", "truck2", "truck3", "drone1", "drone2"] ∧
      ∀ pr ∈ sol, pr.2.length = pC4w.T ∧
        pr.2.head? = some pC4w.start_node) := by
  have hwfg : WFGraph pC4w.graph := by
    unfold WFGraph Graph.num_nodes pC4w grC4
    decide
  have hwfc : WFCost pC4w.cost_calc pC4w.T := by
    refine ⟨?_, by decide, by decide, by decide, by decide⟩
    intro r h1 h5
    constructor
    · show (2 : Nat) ≤ ([100, 1] : List ℚ).length
      decide
    · show ∀ w ∈ ([100, 1] : List ℚ), 0 ≤ w
      decide
  have hdl : ∀ obj ∈ pC4w.objectives, obj.deadline < pC4w.T := by decide
  exact ⟨⟨hwfg, hwfc, by decide, by decide, hdl⟩,
    solve_paths_full_horizon pC4w hwfg hwfc (by decide) (by decide) hdl⟩

/-- claim C5 (amended): under the same well-formedness and horizon
hypotheses, the invariant `current_time = len(path) - 1 ∧ path[0] =
start_node ∧ current_time ≤ T` holds for every vehicle after
initialization and after every objective commit; after the final padding
phase only the weakened form holds — `current_time ≤ len(path) - 1`
(padding extends the path without advancing the clock), with `path[0] =
start_node` and `current_time ≤ T` still true. -/
theorem planner_state_invariants (P : Planner)
    (hwfg : WFGraph P.graph) (hwfc : WFCost P.cost_calc P.T)
    (hstart : P.start_node < P.graph.num_nodes) (hT : 1 ≤ P.T) :
    (∀ v ∈ P.init_vehicles,
      v.current_time = v.path.length - 1 ∧
      v.path.head? = some P.start_node ∧ v.current_time ≤ P.T) ∧
    (∀ (obj : Objective) (vehicles vehicles' : List Vehicle),
      obj.deadline < P.T → (∀ v ∈ vehicles, VehInv P v) →
      P.assign_objective vehicles obj = Except.ok vehicles' →
      ∀ v ∈ vehicles', v.current_time = v.path.length - 1 ∧
        v.path.head? = some P.start_node ∧ v.current_time ≤ P.T) ∧
    (∀ (vehicles : List Vehicle) (sol : List (String × List Nat)),
      (∀ obj ∈ P.objectives, obj.deadline < P.T) →
      P.solve = Except.ok (vehicles, sol) →
      ∀ v ∈ vehicles, v.current_time ≤ v.path.length - 1 ∧
        v.path.head? = some P.start_node ∧ v.current_time ≤ P.T) := by
  refine ⟨?_, ?_, ?_⟩
  · intro v hv
    obtain ⟨h1, h2, _, _, h5⟩ := init_vehicles_inv P hstart hT v hv
    exact ⟨h1, h2, le_of_lt h5⟩
  · intro obj vehicles vehicles' hdl hinv hok
    obtain ⟨vehicles'', hok'', hinv'', _⟩ :=
      assign_objective_inv hwfg hwfc hdl hinv
    rw [hok] at hok''
    rw [Except.ok.injEq] at hok''
    rw [hok'']
    intro v hv
    obtain ⟨h1, h2, _, _, h5⟩ := hinv'' v hv
    exact ⟨h1, h2, le_of_lt h5⟩
  · intro vehicles sol hdl hok
    obtain ⟨vs', haa, hinv', _⟩ := assignAll_inv hwfg hwfc
      (prioritize_objectives P.objectives) P.init_vehicles
      (fun o ho => hdl o ((stableSort_perm _ P.objectives).subset ho))
      (init_vehicles_inv P hstart hT)
    unfold Planner.solve at hok
    rw [haa] at hok
    replace hok : Except.ok (vs'.map (padPath P.T),
        (vs'.map (padPath P.T)).map fun v => (v.id, v.path)) =
      Except.ok (vehicles, sol) := hok
    rw [Except.ok.injEq, Prod.mk.injEq] at hok
    obtain ⟨hveh, _⟩ := hok
    rw [← hveh]
    intro v hv
    obtain ⟨v0, hv0, hv0eq⟩ := List.mem_map.mp hv
    obtain ⟨h1, h2, _, _, h5⟩ := hinv' v0 hv0
    have hlen0 : 1 ≤ v0.path.length := by
      cases hp0 : v0.path with
      | nil => rw [hp0] at h2; simp at h2
      | cons x t => simp
    rw [← hv0eq]
    refine ⟨?_, ?_, ?_⟩
    · show v0.current_time ≤ (v0.path ++
        List.replicate (P.T - v0.path.length) v0.current_node).length - 1
      rw [List.length_append, List.length_replicate]
      omega
    · show (v0.path ++
        List.replicate (P.T - v0.path.length) v0.current_node).head? =
          some P.start_node
      exact head?_append_left _ h2
    · show v0.current_time ≤ P.T
      omega

theorem planner_state_invariants_witness :
    (WFGraph pC4w.graph ∧ WFCost pC4w.cost_calc pC4w.T ∧
      pC4w.start_node < pC4w.graph.num_nodes ∧ 1 ≤ pC4w.T) ∧
    ((∀ v ∈ pC4w.init_vehicles,
      v.current_time = v.path.length - 1 ∧
      v.path.head? = some pC4w.start_node ∧ v.current_time ≤ pC4w.T) ∧
    (∀ (obj : Objective) (vehicles vehicles' : List Vehicle),
      obj.deadline < pC4w.T → (∀ v ∈ vehicles, VehInv pC4w v) →
      pC4w.assign_objective vehicles obj = Except.ok vehicles' →
      ∀ v ∈ vehicles', v.current_time = v.path.length - 1 ∧
        v.path.head? = some pC4w.start_node ∧ v.current_time ≤ pC4w.T) ∧
    (∀ (vehicles : List Vehicle) (sol : List (String × List Nat)),
      (∀ obj ∈ pC4w.objectives, obj.deadline < pC4w.T) →
      pC4w.solve = Except.ok (vehicles, sol) →
      ∀ v ∈ vehicles, v.current_time ≤ v.path.length - 1 ∧
        v.path.head? = some pC4w.start_node ∧ v.current_time ≤ pC4w.T)) := by
  have hwfg : WFGraph pC4w.graph := by
    unfold WFGraph Graph.num_nodes pC4w grC4
    decide
  have hwfc : WFCost pC4w.cost_calc pC4w.T := by
    refine ⟨?_, by decide, by decide, by decide, by decide⟩
    intro r h1 h5
    constructor
    · show (2 : Nat) ≤ ([100, 1] : List ℚ).length
      decide
    · show ∀ w ∈ ([100, 1] : List ℚ), 0 ≤ w
      decide
  exact ⟨⟨hwfg, hwfc, by decide, by decide⟩,
    planner_state_invariants pC4w hwfg hwfc (by decide) (by decide)⟩

/-- claim C10: replaying a winning candidate's path adds to the
vehicle's `total_cost` exactly the cost value the pathfinder returned
for it — the commit loop succeeds, wait steps (including the wait-in-
place steps appended to delay arrival until the release) contribute
zero, each move's re-evaluated edge cost agrees with what the search
charged at the same timestep, and the path's step costs sum to the
returned cost; `total_points` is untouched by the replay itself. -/
theorem commit_cost_matches_pathfinder {P : Planner} {obj : Objective}
    {v : Vehicle} {path2 : List Nat} {cost : ℚ} {arrival2 : Nat}
    {points benefit : ℚ}
    (hwfg : WFGraph P.graph) (hwfc : WFCost P.cost_calc P.T)
    (hnode : v.current_node < P.graph.num_nodes)
    (htime : v.current_time ≤ P.T)
    (heval : P.evalVehicle obj v =
      Except.ok (some (path2, cost, arrival2, points, benefit))) :
    ∃ v', P.applyPath v (path2.drop 1) = Except.ok v' ∧
      v'.total_cost = v.total_cost + cost ∧
      v'.total_points = v.total_points ∧
      schedCost P.graph P.cost_calc v.vtype v.current_time path2 =
        some cost := by
  obtain ⟨_, hspec⟩ := evalVehicle_spec hwfg hwfc hnode htime
  obtain ⟨hsched, hhead2, _, _, _, _, _⟩ := hspec _ _ _ _ _ heval
  obtain ⟨v', hap, _, _, _, hcost, hpts, _, _, _⟩ :=
    applyPath_ok P path2 v cost hsched hhead2
  exact ⟨v', hap, hcost, hpts, hsched⟩

def vC10 : Vehicle := Vehicle.mk "truck1" VehicleType.truck 0 0 [0] 0 0 []

theorem commit_cost_matches_pathfinder_witness :
    (WFGraph pC4.graph ∧ WFCost pC4.cost_calc pC4.T ∧
      vC10.current_node < pC4.graph.num_nodes ∧
      vC10.current_time ≤ pC4.T ∧
      pC4.evalVehicle oC6 vC10 =
        Except.ok (some ([0, 0, 1], 1, 2, 48, 47))) ∧
    (∃ v', pC4.applyPath vC10 ([0, 0, 1].drop 1) = Except.ok v' ∧
      v'.total_cost = vC10.total_cost + 1 ∧
      v'.total_points = vC10.total_points ∧
      schedCost pC4.graph pC4.cost_calc vC10.vtype vC10.current_time
        [0, 0, 1] = some 1) := by
  have hwfg : WFGraph pC4.graph := by
    unfold WFGraph Graph.num_nodes pC4 grC4
    decide
  have hwfc : WFCost pC4.cost_calc pC4.T := by
    refine ⟨?_, by decide, by decide, by decide, by decide⟩
    intro r h1 h5
    constructor
    · show (2 : Nat) ≤ ([100, 1] : List ℚ).length
      decide
    · show ∀ w ∈ ([100, 1] : List ℚ), 0 ≤ w
      decide
  have heval : pC4.evalVehicle oC6 vC10 =
      Except.ok (some ([0, 0, 1], 1, 2, 48, 47)) := by decide
  exact ⟨⟨hwfg, hwfc, by decide, by decide, heval⟩,
    commit_cost_matches_pathfinder hwfg hwfc (by decide) (by decide) heval⟩
